import Mathlib

/-!
# gexpin: the pinning gateway of `main.go`

A shallow embedding of the three stateful pieces of `main.go` (the audit log
written by `logPin`, the `recent` map and the `/pin_package` and `/recent`
handlers) together with the parts of the Go standard library the handlers
call (`strings.Replace`, `strings.HasPrefix`, `strings.Fields`, the
`http.ResponseWriter` header protocol, `http.Error`, `encoding/json`).

In the model of `/pin_package` Go strings are Lean strings (sequences of
Unicode code points), so that model covers the inputs that are valid UTF-8.
In the model of `/recent` the map holds byte strings, valid UTF-8 or not, as
`encoding/json` meets them.  The outside world (`http.Get`, the ipfs shell, the
log file) is a record of oracles; the handler of `/pin_package` returns the
response, the new state and the list of external calls it made, in order.
-/

namespace Gexpin

/-! ## The Go standard library, as far as the handlers use it -/

/-- The function `strings.HasPrefix(s, pre)`. -/
def HasPrefix (s pre : String) : Bool :=
  pre.data.isPrefixOf s.data

/-- The list form of `strings.Replace(s, old, new, 1)`: the first (leftmost)
occurrence of `old` in the text is replaced by `new`; a text without an
occurrence is returned unchanged. -/
def replaceFirst (old new : List Char) : List Char → List Char
  | [] => if old.isEmpty then new else []
  | c :: cs =>
    if old.isPrefixOf (c :: cs) then new ++ (c :: cs).drop old.length
    else c :: replaceFirst old new cs

/-- The call `strings.Replace(s, old, new, 1)`. -/
def Replace1 (s old new : String) : String :=
  ⟨replaceFirst old.data new.data s.data⟩

/-- The predicate `unicode.IsSpace`: the white space of Latin-1 and the code
points of category Z. -/
def isSpace (c : Char) : Bool :=
  let n := c.toNat
  n = 0x09 || n = 0x0A || n = 0x0B || n = 0x0C || n = 0x0D || n = 0x20 ||
  n = 0x85 || n = 0xA0 || n = 0x1680 || (0x2000 ≤ n && n ≤ 0x200A) ||
  n = 0x2028 || n = 0x2029 || n = 0x202F || n = 0x205F || n = 0x3000

/-- The scan of `strings.Fields`: `cur` holds the characters of the field
being read, last character first. -/
def fieldsAux : List Char → List Char → List (List Char)
  | [], cur => if cur.isEmpty then [] else [cur.reverse]
  | c :: cs, cur =>
    if isSpace c then
      if cur.isEmpty then fieldsAux cs [] else cur.reverse :: fieldsAux cs []
    else fieldsAux cs (c :: cur)

/-- The function `strings.Fields(s)`: the maximal runs of characters that are
not white space. -/
def Fields (s : String) : List String :=
  (fieldsAux s.data []).map String.mk

/-- The part of an `http.ResponseWriter` a client observes: whether the status
line has been sent, the status it carries, the body written so far and the
part of it already flushed to the connection. -/
structure ResponseWriter where
  wroteHeader : Bool
  status : Nat
  body : String
  flushed : String
  deriving DecidableEq, Repr

namespace ResponseWriter

/-- The writer a handler is called with: nothing sent yet.  A handler that
returns without sending a status line answers 200. -/
def fresh : ResponseWriter :=
  { wroteHeader := false, status := 200, body := "", flushed := "" }

/-- The method `WriteHeader(code)`: the first call fixes the status, a later
call is ignored (net/http logs it as superfluous). -/
def WriteHeader (w : ResponseWriter) (code : Nat) : ResponseWriter :=
  if w.wroteHeader then w else { w with wroteHeader := true, status := code }

/-- The method `Write(data)`: a write before any `WriteHeader` sends the status
200 first. -/
def Write (w : ResponseWriter) (data : String) : ResponseWriter :=
  let w1 := w.WriteHeader 200
  { w1 with body := w1.body ++ data }

/-- The method `Flush()` of `http.Flusher`: sends the status line if it is
still pending and pushes the body written so far to the client. -/
def Flush (w : ResponseWriter) : ResponseWriter :=
  let w1 := w.WriteHeader 200
  { w1 with flushed := w1.body }

end ResponseWriter

/-- The function `http.Error(w, msg, code)`: `w.WriteHeader(code)` followed by
`fmt.Fprintln(w, msg)`. -/
def httpError (w : ResponseWriter) (msg : String) (code : Nat) : ResponseWriter :=
  (w.WriteHeader code).Write (msg ++ "\n")

/-! ## The outside world -/

/-- The struct `pkgInfo`. -/
structure pkgInfo where
  Url : String
  Hash : String
  Version : String
  deriving DecidableEq, Repr

/-- A Go string as the bytes it holds.  The bytes need not be valid UTF-8. -/
abbrev Bytes := List UInt8

/-- A value of the struct `pkgInfo` as the map `recent` may hold it: the
handler of `/pin_package` stores the bytes of the form value and of the
metadata file unchecked, so each field is a byte string. -/
structure rawPkgInfo where
  Url : Bytes
  Hash : Bytes
  Version : Bytes
  deriving DecidableEq, Repr

/-- The result of `ioutil.ReadAll(resp.Body)`. -/
inductive ReadResult where
  | ok (body : String)
  | err (msg : String)
  deriving DecidableEq, Repr

/-- The result of `http.Get(url)`: an error of the transport, or a response
with its status code and body.  As in net/http, a response with a status
outside 2xx is a response, not an error. -/
inductive GetResult where
  | err (msg : String)
  | resp (StatusCode : Nat) (Body : ReadResult)
  deriving DecidableEq, Repr

/-- The result of `sh.Refs(hash, true)`: an error, or the references the
channel delivers, in order. -/
inductive RefsResult where
  | err (msg : String)
  | ok (refs : List String)
  deriving DecidableEq, Repr

/-- The result of `fmt.Fprintf(log, ...)`: everything written, or an error
after the first `n` characters. -/
inductive WriteResult where
  | ok
  | err (n : Nat) (msg : String)
  deriving DecidableEq, Repr

/-- The external services of the process and the choices of the runtime.
`Pin` answers `none` for a nil error; `mapOrder` is the order in which a
`range` over a map visits the values it holds (Go leaves it unspecified). -/
structure World where
  Get : String → GetResult
  Refs : String → RefsResult
  Pin : String → Option String
  Fprintf : String → WriteResult
  mapOrder : List rawPkgInfo → List rawPkgInfo

/-- An external call made by a handler. -/
inductive Call where
  | get (url : String)
  | refs (hash : String)
  | pin (hash : String)
  | write (line : String)
  deriving DecidableEq, Repr

/-! ## The program state -/

/-- The global state: the content of the file `pinlogs` behind `log` and the
map `recent`. -/
structure State where
  log : String
  recent : AList (fun _ : String => pkgInfo)

/-- An incoming request: its method and `r.FormValue`. -/
structure Request where
  Method : String
  FormValue : String → String

/-- What a handler run leaves behind. -/
structure Outcome where
  w : ResponseWriter
  st : State
  calls : List Call

/-- The function `logPin(ghurl, ref, vers)`: one `Fprintf` of the format
`"%s %s %s\n"` with the arguments `ghurl, vers, ref`.  Returns the new content
of the log, the error and the text handed to `Fprintf`. -/
def logPin (sh : World) (log : String) (ghurl ref vers : String) :
    String × Option String × String :=
  let line := ghurl ++ " " ++ vers ++ " " ++ ref ++ "\n"
  match sh.Fprintf line with
  | .ok => (log ++ line, none, line)
  | .err n msg => (log ++ line.take n, some msg, line)

/-- The loop `for ref := range refs` of the handler: one list item written and
flushed per reference. -/
def writeRefs : ResponseWriter → List String → ResponseWriter
  | w, [] => w
  | w, ref :: rest => writeRefs ((w.Write ("<li>" ++ ref ++ "</li>")).Flush) rest

/-- The handler of `/pin_package`. -/
def pinPackage (sh : World) (st : State) (r : Request) : Outcome :=
  let w := ResponseWriter.fresh
  if r.Method ≠ "POST" then
    ⟨w.WriteHeader 403, st, []⟩
  else
    let ghurl := r.FormValue "ghurl"
    let ghurl := Replace1 ghurl "http://" ""
    let ghurl := Replace1 ghurl "https://" ""
    if ¬ HasPrefix ghurl "github.com/" then
      ⟨httpError w "not a github url!" 400, st, []⟩
    else
      let userpkg := Replace1 ghurl "github.com/" ""
      let url := "https://raw.githubusercontent.com/" ++ userpkg ++ "/master/.gx/lastpubver"
      match sh.Get url with
      | .err e => ⟨httpError w e 400, st, [.get url]⟩
      | .resp _ (.err e) => ⟨httpError w e 400, st, [.get url]⟩
      | .resp _ (.ok out) =>
        match Fields out with
        | [vers, hash] =>
          let w := w.Write "<!DOCTYPE html>\n"
          let w := w.Write ("<p>pinning " ++ ghurl ++ " version " ++ vers ++ ": " ++ hash ++ "</p><br>")
          let w := w.Flush
          match sh.Refs hash with
          | .err e => ⟨httpError w e 500, st, [.get url, .refs hash]⟩
          | .ok refs =>
            let w := w.Write "<ul>\n"
            let w := writeRefs w refs
            let w := w.Write "</ul>\n"
            let w := w.Write "<p>fetched all deps!<br>calling pin now...</p>\n"
            let w := w.Flush
            match sh.Pin hash with
            | some e => ⟨httpError w e 500, st, [.get url, .refs hash, .pin hash]⟩
            | none =>
              match logPin sh st.log ghurl hash vers with
              | (log1, some e, line) =>
                ⟨httpError w ("writing log file: " ++ e) 500, { st with log := log1 },
                  [.get url, .refs hash, .pin hash, .write line]⟩
              | (log1, none, line) =>
                let w := w.Write "<p>success!</p>\n"
                let w := w.Write "<a href='/'>back</a>\n"
                ⟨w, { log := log1,
                      recent := st.recent.insert ghurl
                        { Url := ghurl, Hash := hash, Version := vers } },
                  [.get url, .refs hash, .pin hash, .write line]⟩
        | _ => ⟨httpError w "incorrectly formatted lastpubver in repo" 400, st, [.get url]⟩


/-! ## The handler of `/recent` and `encoding/json`

The handler of `/pin_package` above is modelled on text.  The handler of
`/recent` is modelled on the bytes the map may hold, because `encoding/json`
treats the bytes that are not valid UTF-8 in a way of their own. -/

/-- The values of the map `recent` in the text model, in the order of the
model. -/
def values (m : AList (fun _ : String => pkgInfo)) : List pkgInfo :=
  m.entries.map Sigma.snd

/-- The map `recent` as the runtime holds it: byte strings as keys, records of
byte strings as values. -/
abbrev RecentMap := AList (fun _ : Bytes => rawPkgInfo)

/-- The values of the map `recent`, in the order of the model. -/
def rawValues (m : RecentMap) : List rawPkgInfo :=
  m.entries.map Sigma.snd

/-- A Go slice of `pkgInfo`: `none` is the nil slice of `var pkgs []pkgInfo`. -/
abbrev Slice := Option (List rawPkgInfo)

/-- The builtin `append(pkgs, p)`: appending to the nil slice allocates. -/
def Slice.append : Slice → rawPkgInfo → Slice
  | none, p => some [p]
  | some l, p => some (l ++ [p])

/-- The lowest second byte `utf8.DecodeRune` accepts after the first byte `s0`
(the table `acceptRanges`). -/
def acceptLo (s0 : Nat) : Nat :=
  if s0 = 0xE0 then 0xA0 else if s0 = 0xF0 then 0x90 else 0x80

/-- The highest second byte `utf8.DecodeRune` accepts after the first byte
`s0`. -/
def acceptHi (s0 : Nat) : Nat :=
  if s0 = 0xED then 0x9F else if s0 = 0xF4 then 0x8F else 0xBF

/-- The function `utf8.DecodeRuneInString`: the code point at the start of the
bytes and the number of bytes it takes.  A byte that does not start a valid
encoding is reported as `U+FFFD` of width 1. -/
def decodeRune : Bytes → Nat × Nat
  | [] => (0xFFFD, 0)
  | b0 :: rest =>
    let s0 := b0.toNat
    if s0 < 0x80 then (s0, 1)
    else if s0 < 0xC2 then (0xFFFD, 1)
    else if s0 < 0xE0 then
      match rest with
      | b1 :: _ =>
        if 0x80 ≤ b1.toNat ∧ b1.toNat ≤ 0xBF then
          ((s0 % 32) * 64 + b1.toNat % 64, 2)
        else (0xFFFD, 1)
      | _ => (0xFFFD, 1)
    else if s0 < 0xF0 then
      match rest with
      | b1 :: b2 :: _ =>
        if acceptLo s0 ≤ b1.toNat ∧ b1.toNat ≤ acceptHi s0 ∧
            0x80 ≤ b2.toNat ∧ b2.toNat ≤ 0xBF then
          ((s0 % 16) * 4096 + (b1.toNat % 64) * 64 + b2.toNat % 64, 3)
        else (0xFFFD, 1)
      | _ => (0xFFFD, 1)
    else if s0 < 0xF5 then
      match rest with
      | b1 :: b2 :: b3 :: _ =>
        if acceptLo s0 ≤ b1.toNat ∧ b1.toNat ≤ acceptHi s0 ∧
            0x80 ≤ b2.toNat ∧ b2.toNat ≤ 0xBF ∧ 0x80 ≤ b3.toNat ∧ b3.toNat ≤ 0xBF then
          ((s0 % 8) * 262144 + (b1.toNat % 64) * 4096 + (b2.toNat % 64) * 64 +
            b3.toNat % 64, 4)
        else (0xFFFD, 1)
      | _ => (0xFFFD, 1)
    else (0xFFFD, 1)

/-- The text of a byte string from its byte `skip` on, read as a `range` loop
over a Go string reads it: one code point per valid encoding and `U+FFFD` per
byte outside one. -/
def runesFrom : Nat → Bytes → List Char
  | _, [] => []
  | skip + 1, _ :: rest => runesFrom skip rest
  | 0, b :: rest =>
    Char.ofNat (decodeRune (b :: rest)).1 :: runesFrom ((decodeRune (b :: rest)).2 - 1) rest

/-- The text of a byte string: for valid UTF-8 the text it encodes. -/
def runes (s : Bytes) : String :=
  ⟨runesFrom 0 s⟩

/-- The function `utf8.EncodeRune`: the bytes of one code point. -/
def encodeRune (c : Char) : Bytes :=
  let n := c.toNat
  if n < 0x80 then [UInt8.ofNat n]
  else if n < 0x800 then [UInt8.ofNat (0xC0 + n / 64), UInt8.ofNat (0x80 + n % 64)]
  else if n < 0x10000 then
    [UInt8.ofNat (0xE0 + n / 4096), UInt8.ofNat (0x80 + n / 64 % 64),
      UInt8.ofNat (0x80 + n % 64)]
  else
    [UInt8.ofNat (0xF0 + n / 262144), UInt8.ofNat (0x80 + n / 4096 % 64),
      UInt8.ofNat (0x80 + n / 64 % 64), UInt8.ofNat (0x80 + n % 64)]

/-- The bytes of a text: its UTF-8 encoding. -/
def utf8 (s : String) : Bytes :=
  s.data.flatMap encodeRune

/-- The text of a byte string, stated without the decoder: the bytes are read
from the left, the UTF-8 encoding of a code point is read as that code point,
and a byte at which no encoding of a code point starts is read as `U+FFFD`. -/
inductive Reads : Bytes → List Char → Prop where
  | nil : Reads [] []
  | rune (c : Char) (rest : Bytes) (t : List Char) :
      Reads rest t → Reads (encodeRune c ++ rest) (c :: t)
  | stray (b : UInt8) (rest : Bytes) (t : List Char) :
      (∀ c : Char, ¬ encodeRune c <+: b :: rest) → Reads rest t →
      Reads (b :: rest) (Char.ofNat 0xFFFD :: t)

/-- A record of the text model as the bytes the map holds for it. -/
def pkgInfo.raw (p : pkgInfo) : rawPkgInfo :=
  { Url := utf8 p.Url, Hash := utf8 p.Hash, Version := utf8 p.Version }

/-- The text of a record of byte strings. -/
def rawPkgInfo.text (p : rawPkgInfo) : pkgInfo :=
  { Url := runes p.Url, Hash := runes p.Hash, Version := runes p.Version }

/-- One lower-case hexadecimal digit. -/
def hexDigit (n : Nat) : Char :=
  if n < 10 then Char.ofNat (48 + n) else Char.ofNat (87 + n)

/-- The escaping of one code point inside a JSON string by `encoding/json`
with HTML escaping on, the default of `json.NewEncoder`.  Backspace and form
feed are written `\b` and `\f` as Go 1.22 does; earlier releases write
`\u0008` and `\u000c`, which denote the same characters. -/
def jsonEscape (c : Char) : List Char :=
  if c = '"' then ['\\', '"']
  else if c = '\\' then ['\\', '\\']
  else if c = '\x08' then ['\\', 'b']
  else if c = '\x0c' then ['\\', 'f']
  else if c = '\n' then ['\\', 'n']
  else if c = '\r' then ['\\', 'r']
  else if c = '\t' then ['\\', 't']
  else if c.toNat < 0x20 ∨ c = '<' ∨ c = '>' ∨ c = '&' then
    ['\\', 'u', '0', '0', hexDigit (c.toNat / 16), hexDigit (c.toNat % 16)]
  else if c.toNat = 0x2028 then ['\\', 'u', '2', '0', '2', '8']
  else if c.toNat = 0x2029 then ['\\', 'u', '2', '0', '2', '9']
  else [c]

/-- The loop of `encoding/json` over the bytes of a Go string, from the byte
`skip` on: a byte that `utf8.DecodeRune` reports as invalid is written as the
six characters `\ufffd`, every other code point is escaped by `jsonEscape`. -/
def jsonCharsFrom : Nat → Bytes → List Char
  | _, [] => []
  | skip + 1, _ :: rest => jsonCharsFrom skip rest
  | 0, b :: rest =>
    (if (decodeRune (b :: rest)).1 = 0xFFFD ∧ (decodeRune (b :: rest)).2 = 1 then
      ['\\', 'u', 'f', 'f', 'f', 'd']
    else jsonEscape (Char.ofNat (decodeRune (b :: rest)).1)) ++
      jsonCharsFrom ((decodeRune (b :: rest)).2 - 1) rest

/-- A Go string as a JSON string. -/
def jsonString (s : Bytes) : List Char :=
  '"' :: (jsonCharsFrom 0 s ++ ['"'])

/-- A `pkgInfo` as a JSON object: the exported fields under their Go names, in
the order of the struct. -/
def jsonPkgInfo (p : rawPkgInfo) : List Char :=
  "\x7b\"Url\":".data ++ jsonString p.Url ++ ",\"Hash\":".data ++ jsonString p.Hash ++
    ",\"Version\":".data ++ jsonString p.Version ++ "\x7d".data

/-- The elements of a JSON array, separated by commas. -/
def jsonElems : List rawPkgInfo → List Char
  | [] => []
  | [p] => jsonPkgInfo p
  | p :: q :: rest => jsonPkgInfo p ++ ',' :: jsonElems (q :: rest)

/-- The function `json.Marshal` on a `[]pkgInfo`: the nil slice is `null`. -/
def jsonMarshal : Slice → List Char
  | none => "null".data
  | some l => '[' :: (jsonElems l ++ [']'])

/-- The method `Encode` of a `json.Encoder` on `w`: one write of the encoding
followed by a newline. -/
def jsonEncode (w : ResponseWriter) (pkgs : Slice) : ResponseWriter :=
  w.Write ⟨jsonMarshal pkgs ++ ['\n']⟩

/-- The handler of `/recent`: it reads the map and writes the response. -/
def recentHandler (sh : World) (recent : RecentMap) : ResponseWriter :=
  let w := ResponseWriter.fresh
  let pkgs : Slice := (sh.mapOrder (rawValues recent)).foldl Slice.append none
  jsonEncode w pkgs

/-! ## Reading the body of `/recent` back

What a client that parses the compact JSON of the response obtains; used to
state which records the body of `/recent` holds. -/

/-- The value of a hexadecimal digit. -/
def hexVal (c : Char) : Option Nat :=
  let n := c.toNat
  if 48 ≤ n ∧ n ≤ 57 then some (n - 48)
  else if 97 ≤ n ∧ n ≤ 102 then some (n - 87)
  else if 65 ≤ n ∧ n ≤ 70 then some (n - 55)
  else none

/-- The character a two-character escape of JSON stands for. -/
def simpleEscape (c : Char) : Option Char :=
  if c = '"' then some '"'
  else if c = '\\' then some '\\'
  else if c = '/' then some '/'
  else if c = 'b' then some '\x08'
  else if c = 'f' then some '\x0c'
  else if c = 'n' then some '\n'
  else if c = 'r' then some '\r'
  else if c = 't' then some '\t'
  else none

/-- Where the reader stands inside a JSON string: between characters, after a
backslash, or inside a `\u` escape with `k` digits to go and value `v` so far. -/
inductive Unq where
  | plain
  | esc
  | hex (k v : Nat)

/-- Reads a JSON string up to its closing quote: the characters it denotes
(collected in `acc`, last first) and the text after the quote. -/
def readChars : Unq → List Char → List Char → Option (List Char × List Char)
  | _, _, [] => none
  | .plain, acc, c :: cs =>
    if c = '"' then some (acc.reverse, cs)
    else if c = '\\' then readChars .esc acc cs
    else if c.toNat < 0x20 then none
    else readChars .plain (c :: acc) cs
  | .esc, acc, c :: cs =>
    if c = 'u' then readChars (.hex 4 0) acc cs
    else
      match simpleEscape c with
      | some d => readChars .plain (d :: acc) cs
      | none => none
  | .hex k v, acc, c :: cs =>
    match hexVal c with
    | none => none
    | some d =>
      if k ≤ 1 then readChars .plain (Char.ofNat (16 * v + d) :: acc) cs
      else readChars (.hex (k - 1) (16 * v + d)) acc cs

/-- Reads one JSON string. -/
def readString : List Char → Option (String × List Char)
  | [] => none
  | c :: cs =>
    if c = '"' then
      match readChars .plain [] cs with
      | some (chars, rest) => some (⟨chars⟩, rest)
      | none => none
    else none

/-- Reads the fixed text `lit`. -/
def readLit (lit s : List Char) : Option (List Char) :=
  if lit.isPrefixOf s then some (s.drop lit.length) else none

/-- Reads one object with the fields `Url`, `Hash` and `Version`. -/
def readPkgInfo (s : List Char) : Option (pkgInfo × List Char) :=
  match readLit "\x7b\"Url\":".data s with
  | none => none
  | some s1 =>
    match readString s1 with
    | none => none
    | some (url, s2) =>
      match readLit ",\"Hash\":".data s2 with
      | none => none
      | some s3 =>
        match readString s3 with
        | none => none
        | some (hash, s4) =>
          match readLit ",\"Version\":".data s4 with
          | none => none
          | some s5 =>
            match readString s5 with
            | none => none
            | some (vers, s6) =>
              match readLit "\x7d".data s6 with
              | none => none
              | some s7 => some ({ Url := url, Hash := hash, Version := vers }, s7)

/-- Reads the objects of a non-empty array up to the closing bracket; `fuel`
bounds the number of objects. -/
def readElems : Nat → List Char → Option (List pkgInfo × List Char)
  | 0, _ => none
  | fuel + 1, s =>
    match readPkgInfo s with
    | none => none
    | some (_, []) => none
    | some (p, c :: rest) =>
      if c = ',' then
        match readElems fuel rest with
        | some (ps, rest1) => some (p :: ps, rest1)
        | none => none
      else if c = ']' then some ([p], rest)
      else none

/-- Reads a body that is one JSON array of such objects followed by a newline.
Any other body, the JSON value `null` included, is not read. -/
def readArray (body : String) : Option (List pkgInfo) :=
  match body.data with
  | [] => none
  | c :: s =>
    if c = '[' then
      if s = [']', '\n'] then some []
      else
        match readElems s.length s with
        | some (ps, rest) => if rest = ['\n'] then some ps else none
        | none => none
    else none

/-! ## Names for the intermediate values of `/pin_package` -/

/-- The value of `ghurl` after the two calls of `strings.Replace`. -/
def normalize (ghurl : String) : String :=
  Replace1 (Replace1 ghurl "http://" "") "https://" ""

/-- The normalized URL of a request. -/
def normalized (r : Request) : String :=
  normalize (r.FormValue "ghurl")

/-- The value of `url`: the location of the metadata file of the request. -/
def lastpubverUrl (r : Request) : String :=
  "https://raw.githubusercontent.com/" ++ Replace1 (normalized r) "github.com/" "" ++
    "/master/.gx/lastpubver"

/-- The text the loop over the references writes. -/
def refsHtml : List String → String
  | [] => ""
  | ref :: rest => "<li>" ++ ref ++ "</li>" ++ refsHtml rest

/-- The function `strings.Contains(s, sub)`. -/
def Contains (s sub : String) : Prop :=
  sub.data <:+: s.data

instance (s sub : String) : Decidable (Contains s sub) :=
  inferInstanceAs (Decidable (sub.data <:+: s.data))

/-- The text `t` is the text `s` without its first occurrence of `old`: either
`old` does not occur in `s` and `t` is `s`, or `s` is `a ++ old ++ b` where no
occurrence of `old` starts inside `a`, and `t` is `a ++ b`. -/
def RemovesFirst (old s t : String) : Prop :=
  (¬ Contains s old ∧ t = s) ∨
  ∃ a b : String, s = a ++ old ++ b ∧ ¬ old.data <:+: a.data ++ old.data.dropLast ∧
    t = a ++ b

/-- Resolution fails: the fetch errs, the body cannot be read or it does not
hold exactly two fields. -/
def resolutionFails (sh : World) (r : Request) : Bool :=
  match sh.Get (lastpubverUrl r) with
  | .err _ => true
  | .resp _ (.err _) => true
  | .resp _ (.ok out) => (Fields out).length ≠ 2

/-- The text written and flushed before the enumeration starts. -/
def preamble (ghurl vers hash : String) : String :=
  "<!DOCTYPE html>\n" ++ ("<p>pinning " ++ ghurl ++ " version " ++ vers ++ ": " ++ hash ++ "</p><br>")

/-- The text `logPin` hands to `Fprintf`. -/
def logLine (ghurl ref vers : String) : String :=
  ghurl ++ " " ++ vers ++ " " ++ ref ++ "\n"

/-! ## Sample worlds, states and requests -/

/-- A request that submits the URL of `acme/widget`. -/
def widgetRequest : Request :=
  { Method := "POST", FormValue := fun _ => "https://github.com/acme/widget" }

/-- A world in which every step of the pin of `acme/widget` succeeds. -/
def widgetWorld : World :=
  { Get := fun _ => .resp 200 (.ok "1.2.3 QmAbc123"),
    Refs := fun _ => .ok ["QmAbc123", "QmDef456"],
    Pin := fun _ => none,
    Fprintf := fun _ => .ok,
    mapOrder := List.reverse }

/-- A request that submits a repository of another host. -/
def gitlabRequest : Request :=
  { Method := "POST", FormValue := fun _ => "https://gitlab.com/acme/widget" }

/-- The world of `widgetWorld` with a storage node that refuses to enumerate. -/
def refsDownWorld : World :=
  { widgetWorld with Refs := fun _ => .err "ipfs: connection refused" }

/-- The world of `widgetWorld` with a metadata file of one field. -/
def oneTokenWorld : World :=
  { widgetWorld with Get := fun _ => .resp 200 (.ok "onlyonetoken") }

/-- The world of `widgetWorld` with a metadata host that answers 404 and a
body of two fields. -/
def notFoundWorld : World :=
  { widgetWorld with Get := fun _ => .resp 404 (.ok "1.2.3 QmAbc123") }

/-- The map `recent` after two pins. -/
def twoPinsMap : RecentMap :=
  ((∅ : RecentMap).insert (utf8 "github.com/acme/widget")
    { Url := utf8 "github.com/acme/widget", Hash := utf8 "QmAbc123",
      Version := utf8 "1.2.3" }).insert
    (utf8 "github.com/a/<b>")
    { Url := utf8 "github.com/a/<b>", Hash := utf8 "QmXyz", Version := utf8 "0.1é" }

/-- The map `recent` after the pin of a repository whose metadata file holds
the version `1.0` followed by the byte `0xE9`, which is not valid UTF-8. -/
def latin1Map : RecentMap :=
  (∅ : RecentMap).insert (utf8 "github.com/a/b")
    { Url := utf8 "github.com/a/b", Hash := utf8 "QmXyz",
      Version := utf8 "1.0" ++ [0xE9] }

/-- A request whose `ghurl` holds a newline. -/
def forgedRequest : Request :=
  { Method := "POST",
    FormValue := fun _ => "github.com/o/r/master/.gx/lastpubver#\nFORGED 9.9.9 QmEvil" }

/-- The state of a process that has just started on an empty log. -/
def emptyState : State :=
  { log := "", recent := ∅ }

/-! # Theorems -/

/-! ## The response writer -/

namespace ResponseWriter

@[simp] theorem wroteHeader_WriteHeader (w : ResponseWriter) (c : Nat) :
    (w.WriteHeader c).wroteHeader = true := by
  unfold WriteHeader; split <;> simp_all

theorem status_WriteHeader (w : ResponseWriter) (c : Nat) :
    (w.WriteHeader c).status = if w.wroteHeader then w.status else c := by
  unfold WriteHeader; split <;> simp_all

@[simp] theorem body_WriteHeader (w : ResponseWriter) (c : Nat) :
    (w.WriteHeader c).body = w.body := by
  unfold WriteHeader; split <;> simp_all

@[simp] theorem wroteHeader_Write (w : ResponseWriter) (d : String) :
    (w.Write d).wroteHeader = true := by simp [Write]

@[simp] theorem wroteHeader_Flush (w : ResponseWriter) : w.Flush.wroteHeader = true := by
  simp [Flush]

theorem status_Write (w : ResponseWriter) (d : String) :
    (w.Write d).status = if w.wroteHeader then w.status else 200 := by
  simp [Write, status_WriteHeader]

theorem status_Flush (w : ResponseWriter) :
    w.Flush.status = if w.wroteHeader then w.status else 200 := by
  simp [Flush, status_WriteHeader]

@[simp] theorem body_Write (w : ResponseWriter) (d : String) :
    (w.Write d).body = w.body ++ d := by simp [Write]

@[simp] theorem body_Flush (w : ResponseWriter) : w.Flush.body = w.body := by
  simp [Flush]

@[simp] theorem wroteHeader_fresh : fresh.wroteHeader = false := rfl

@[simp] theorem body_fresh : fresh.body = "" := rfl

end ResponseWriter

theorem status_httpError (w : ResponseWriter) (e : String) (c : Nat) :
    (httpError w e c).status = if w.wroteHeader then w.status else c := by
  simp [httpError, ResponseWriter.status_Write, ResponseWriter.status_WriteHeader]

@[simp] theorem body_httpError (w : ResponseWriter) (e : String) (c : Nat) :
    (httpError w e c).body = w.body ++ (e ++ "\n") := by
  simp [httpError]

theorem wroteHeader_writeRefs (refs : List String) (w : ResponseWriter)
    (h : w.wroteHeader = true) : (writeRefs w refs).wroteHeader = true := by
  induction refs generalizing w with
  | nil => simpa [writeRefs] using h
  | cons a t ih => exact ih _ (by simp)

theorem status_writeRefs (refs : List String) (w : ResponseWriter)
    (h : w.wroteHeader = true) : (writeRefs w refs).status = w.status := by
  induction refs generalizing w with
  | nil => simp [writeRefs]
  | cons a t ih =>
    rw [writeRefs, ih _ (by simp)]
    simp [ResponseWriter.status_Flush, ResponseWriter.status_Write, h]

theorem body_writeRefs (refs : List String) (w : ResponseWriter) :
    (writeRefs w refs).body = w.body ++ refsHtml refs := by
  induction refs generalizing w with
  | nil => simp [writeRefs, refsHtml]
  | cons a t ih =>
    rw [writeRefs, ih]
    simp [refsHtml, String.append_assoc]

/-! ## The paths through `/pin_package` -/

theorem pinPackage_of_not_post (sh : World) (st : State) (r : Request)
    (hm : r.Method ≠ "POST") :
    pinPackage sh st r = ⟨ResponseWriter.fresh.WriteHeader 403, st, []⟩ := by
  simp [pinPackage, hm]

theorem pinPackage_of_rejected (sh : World) (st : State) (r : Request)
    (hm : r.Method = "POST") (hp : HasPrefix (normalized r) "github.com/" = false) :
    pinPackage sh st r = ⟨httpError .fresh "not a github url!" 400, st, []⟩ := by
  unfold normalized normalize at hp
  simp [pinPackage, hm, hp]

theorem pinPackage_of_get_err (sh : World) (st : State) (r : Request) (e : String)
    (hm : r.Method = "POST") (hp : HasPrefix (normalized r) "github.com/" = true)
    (hg : sh.Get (lastpubverUrl r) = .err e) :
    pinPackage sh st r = ⟨httpError .fresh e 400, st, [.get (lastpubverUrl r)]⟩ := by
  unfold normalized normalize at hp
  unfold lastpubverUrl normalized normalize at hg
  simp [pinPackage, hm, hp, hg]
  rfl

theorem pinPackage_of_read_err (sh : World) (st : State) (r : Request) (c : Nat) (e : String)
    (hm : r.Method = "POST") (hp : HasPrefix (normalized r) "github.com/" = true)
    (hg : sh.Get (lastpubverUrl r) = .resp c (.err e)) :
    pinPackage sh st r = ⟨httpError .fresh e 400, st, [.get (lastpubverUrl r)]⟩ := by
  unfold normalized normalize at hp
  unfold lastpubverUrl normalized normalize at hg
  simp [pinPackage, hm, hp, hg]
  rfl

theorem pinPackage_of_bad_fields (sh : World) (st : State) (r : Request) (c : Nat)
    (out : String)
    (hm : r.Method = "POST") (hp : HasPrefix (normalized r) "github.com/" = true)
    (hg : sh.Get (lastpubverUrl r) = .resp c (.ok out)) (hf : (Fields out).length ≠ 2) :
    pinPackage sh st r =
      ⟨httpError .fresh "incorrectly formatted lastpubver in repo" 400, st,
        [.get (lastpubverUrl r)]⟩ := by
  unfold normalized normalize at hp
  unfold lastpubverUrl normalized normalize at hg
  simp only [pinPackage, hm, hp, hg]
  simp
  split
  · rename_i h; simp [h] at hf
  · rfl

theorem pinPackage_of_refs_err (sh : World) (st : State) (r : Request) (c : Nat)
    (out v h e : String)
    (hm : r.Method = "POST") (hp : HasPrefix (normalized r) "github.com/" = true)
    (hg : sh.Get (lastpubverUrl r) = .resp c (.ok out)) (hf : Fields out = [v, h])
    (hR : sh.Refs h = .err e) :
    (pinPackage sh st r).st = st ∧
    (pinPackage sh st r).calls = [.get (lastpubverUrl r), .refs h] ∧
    (pinPackage sh st r).w.status = 200 ∧
    (pinPackage sh st r).w.body = preamble (normalized r) v h ++ (e ++ "\n") := by
  unfold normalized normalize at hp
  unfold lastpubverUrl normalized normalize at hg
  unfold lastpubverUrl preamble normalized normalize
  simp only [pinPackage, hm, hp, hg, hf, hR]
  simp [ResponseWriter.status_Write, ResponseWriter.status_Flush, status_httpError,
    String.append_assoc]

theorem pinPackage_of_pin_err (sh : World) (st : State) (r : Request) (c : Nat)
    (out v h e : String) (refs : List String)
    (hm : r.Method = "POST") (hp : HasPrefix (normalized r) "github.com/" = true)
    (hg : sh.Get (lastpubverUrl r) = .resp c (.ok out)) (hf : Fields out = [v, h])
    (hR : sh.Refs h = .ok refs) (hP : sh.Pin h = some e) :
    (pinPackage sh st r).st = st ∧
    (pinPackage sh st r).calls = [.get (lastpubverUrl r), .refs h, .pin h] ∧
    (pinPackage sh st r).w.status = 200 ∧
    (pinPackage sh st r).w.body =
      preamble (normalized r) v h ++ "<ul>\n" ++ refsHtml refs ++ "</ul>\n" ++
        "<p>fetched all deps!<br>calling pin now...</p>\n" ++ (e ++ "\n") := by
  unfold normalized normalize at hp
  unfold lastpubverUrl normalized normalize at hg
  unfold lastpubverUrl preamble normalized normalize
  simp only [pinPackage, hm, hp, hg, hf, hR, hP]
  simp [ResponseWriter.status_Write, ResponseWriter.status_Flush, status_httpError,
    status_writeRefs, wroteHeader_writeRefs, body_writeRefs, String.append_assoc]

theorem pinPackage_of_log_err (sh : World) (st : State) (r : Request) (c n : Nat)
    (out v h e : String) (refs : List String)
    (hm : r.Method = "POST") (hp : HasPrefix (normalized r) "github.com/" = true)
    (hg : sh.Get (lastpubverUrl r) = .resp c (.ok out)) (hf : Fields out = [v, h])
    (hR : sh.Refs h = .ok refs) (hP : sh.Pin h = none)
    (hW : sh.Fprintf (logLine (normalized r) h v) = .err n e) :
    (pinPackage sh st r).st.recent = st.recent ∧
    (pinPackage sh st r).st.log = st.log ++ (logLine (normalized r) h v).take n ∧
    (pinPackage sh st r).calls =
      [.get (lastpubverUrl r), .refs h, .pin h, .write (logLine (normalized r) h v)] ∧
    (pinPackage sh st r).w.status = 200 ∧
    (pinPackage sh st r).w.body =
      preamble (normalized r) v h ++ "<ul>\n" ++ refsHtml refs ++ "</ul>\n" ++
        "<p>fetched all deps!<br>calling pin now...</p>\n" ++
        ("writing log file: " ++ e ++ "\n") := by
  unfold normalized normalize at hp
  unfold logLine normalized normalize at hW
  unfold lastpubverUrl normalized normalize at hg
  unfold lastpubverUrl preamble logLine normalized normalize
  simp only [pinPackage, hm, hp, hg, hf, hR, hP, logPin, hW]
  simp [ResponseWriter.status_Write, ResponseWriter.status_Flush, status_httpError,
    status_writeRefs, wroteHeader_writeRefs, body_writeRefs, String.append_assoc]

theorem pinPackage_of_success (sh : World) (st : State) (r : Request) (c : Nat)
    (out v h : String) (refs : List String)
    (hm : r.Method = "POST") (hp : HasPrefix (normalized r) "github.com/" = true)
    (hg : sh.Get (lastpubverUrl r) = .resp c (.ok out)) (hf : Fields out = [v, h])
    (hR : sh.Refs h = .ok refs) (hP : sh.Pin h = none)
    (hW : sh.Fprintf (logLine (normalized r) h v) = .ok) :
    (pinPackage sh st r).st.log = st.log ++ logLine (normalized r) h v ∧
    (pinPackage sh st r).st.recent =
      st.recent.insert (normalized r) ⟨normalized r, h, v⟩ ∧
    (pinPackage sh st r).calls =
      [.get (lastpubverUrl r), .refs h, .pin h, .write (logLine (normalized r) h v)] ∧
    (pinPackage sh st r).w.status = 200 ∧
    (pinPackage sh st r).w.body =
      preamble (normalized r) v h ++ "<ul>\n" ++ refsHtml refs ++ "</ul>\n" ++
        "<p>fetched all deps!<br>calling pin now...</p>\n" ++ "<p>success!</p>\n" ++
        "<a href='/'>back</a>\n" := by
  unfold normalized normalize at hp
  unfold logLine normalized normalize at hW
  unfold lastpubverUrl normalized normalize at hg
  unfold lastpubverUrl preamble logLine normalized normalize
  simp only [pinPackage, hm, hp, hg, hf, hR, hP, logPin, hW]
  simp [ResponseWriter.status_Write, ResponseWriter.status_Flush,
    status_writeRefs, wroteHeader_writeRefs, body_writeRefs, String.append_assoc]


/-- Every run of the handler takes one of seven paths. -/
theorem pinPackage_cases (sh : World) (st : State) (r : Request) :
    (r.Method ≠ "POST" ∧ (pinPackage sh st r).st = st ∧ (pinPackage sh st r).calls = [] ∧
      (pinPackage sh st r).w.status = 403) ∨
    (r.Method = "POST" ∧ HasPrefix (normalized r) "github.com/" = false ∧
      (pinPackage sh st r).st = st ∧ (pinPackage sh st r).calls = [] ∧
      (pinPackage sh st r).w.status = 400) ∨
    (r.Method = "POST" ∧ HasPrefix (normalized r) "github.com/" = true ∧
      resolutionFails sh r = true ∧
      (pinPackage sh st r).st = st ∧
      (pinPackage sh st r).calls = [.get (lastpubverUrl r)] ∧
      (pinPackage sh st r).w.status = 400) ∨
    (r.Method = "POST" ∧ HasPrefix (normalized r) "github.com/" = true ∧
      resolutionFails sh r = false ∧
      ∃ h e, sh.Refs h = .err e ∧
        (pinPackage sh st r).st = st ∧
        (pinPackage sh st r).calls = [.get (lastpubverUrl r), .refs h] ∧
        (pinPackage sh st r).w.status = 200) ∨
    (r.Method = "POST" ∧ HasPrefix (normalized r) "github.com/" = true ∧
      resolutionFails sh r = false ∧
      ∃ h e refs, sh.Refs h = .ok refs ∧ sh.Pin h = some e ∧
        (pinPackage sh st r).st = st ∧
        (pinPackage sh st r).calls = [.get (lastpubverUrl r), .refs h, .pin h] ∧
        (pinPackage sh st r).w.status = 200) ∨
    (r.Method = "POST" ∧ HasPrefix (normalized r) "github.com/" = true ∧
      resolutionFails sh r = false ∧
      ∃ h v n e refs, sh.Refs h = .ok refs ∧ sh.Pin h = none ∧
        sh.Fprintf (logLine (normalized r) h v) = .err n e ∧
        (pinPackage sh st r).st.recent = st.recent ∧
        (pinPackage sh st r).st.log = st.log ++ (logLine (normalized r) h v).take n ∧
        (pinPackage sh st r).calls =
          [.get (lastpubverUrl r), .refs h, .pin h, .write (logLine (normalized r) h v)] ∧
        (pinPackage sh st r).w.status = 200) ∨
    (r.Method = "POST" ∧ HasPrefix (normalized r) "github.com/" = true ∧
      resolutionFails sh r = false ∧
      ∃ h v refs, sh.Refs h = .ok refs ∧ sh.Pin h = none ∧
        sh.Fprintf (logLine (normalized r) h v) = .ok ∧
        (pinPackage sh st r).st.recent =
          st.recent.insert (normalized r) ⟨normalized r, h, v⟩ ∧
        (pinPackage sh st r).st.log = st.log ++ logLine (normalized r) h v ∧
        (pinPackage sh st r).calls =
          [.get (lastpubverUrl r), .refs h, .pin h, .write (logLine (normalized r) h v)] ∧
        (pinPackage sh st r).w.status = 200) := by
  by_cases hm : r.Method = "POST"
  swap
  · left
    rw [pinPackage_of_not_post sh st r hm]
    exact ⟨hm, rfl, rfl, rfl⟩
  cases hp : HasPrefix (normalized r) "github.com/"
  · right; left
    rw [pinPackage_of_rejected sh st r hm hp]
    exact ⟨hm, rfl, rfl, rfl, rfl⟩
  right; right
  rcases hg : sh.Get (lastpubverUrl r) with e | ⟨c, out | e⟩
  · left
    rw [pinPackage_of_get_err sh st r e hm hp hg]
    exact ⟨hm, rfl, by simp [resolutionFails, hg], rfl, rfl, rfl⟩
  swap
  · left
    rw [pinPackage_of_read_err sh st r c e hm hp hg]
    exact ⟨hm, rfl, by simp [resolutionFails, hg], rfl, rfl, rfl⟩
  by_cases hl : (Fields out).length = 2
  swap
  · left
    rw [pinPackage_of_bad_fields sh st r c out hm hp hg hl]
    exact ⟨hm, rfl, by simp [resolutionFails, hg, hl], rfl, rfl, rfl⟩
  right
  have hres : resolutionFails sh r = false := by simp [resolutionFails, hg, hl]
  obtain ⟨v, h, hf⟩ : ∃ v h, Fields out = [v, h] := by
    rcases hF : Fields out with _ | ⟨v, _ | ⟨h, _ | ⟨x, t⟩⟩⟩ <;> simp [hF] at hl
    exact ⟨v, h, rfl⟩
  rcases hR : sh.Refs h with e | refs
  · left
    obtain ⟨h1, h2, h3, -⟩ := pinPackage_of_refs_err sh st r c out v h e hm hp hg hf hR
    exact ⟨hm, rfl, hres, h, e, hR, h1, h2, h3⟩
  right
  rcases hP : sh.Pin h with _ | e
  swap
  · left
    obtain ⟨h1, h2, h3, -⟩ := pinPackage_of_pin_err sh st r c out v h e refs hm hp hg hf hR hP
    exact ⟨hm, rfl, hres, h, e, refs, hR, hP, h1, h2, h3⟩
  right
  rcases hW : sh.Fprintf (logLine (normalized r) h v) with _ | ⟨n, e⟩
  · right
    obtain ⟨h1, h2, h3, h4, -⟩ :=
      pinPackage_of_success sh st r c out v h refs hm hp hg hf hR hP hW
    exact ⟨hm, rfl, hres, h, v, refs, hR, hP, hW, h2, h1, h3, h4⟩
  · left
    obtain ⟨h1, h2, h3, h4, -⟩ :=
      pinPackage_of_log_err sh st r c n out v h e refs hm hp hg hf hR hP hW
    exact ⟨hm, rfl, hres, h, v, n, e, refs, hR, hP, hW, h1, h2, h3, h4⟩


/-! ## `strings.Fields` -/

theorem fieldsAux_no_space (s : List Char) :
    ∀ cur : List Char, (∀ c ∈ cur, isSpace c = false) →
      ∀ t ∈ fieldsAux s cur, ∀ c ∈ t, isSpace c = false := by
  induction s with
  | nil =>
    intro cur hcur t ht c hc
    unfold fieldsAux at ht
    split at ht
    · simp at ht
    · simp only [List.mem_singleton] at ht
      subst ht
      exact hcur c (List.mem_reverse.mp hc)
  | cons a s ih =>
    intro cur hcur t ht c hc
    unfold fieldsAux at ht
    split at ht
    · split at ht
      · exact ih [] (by simp) t ht c hc
      · rcases List.mem_cons.mp ht with h | h
        · subst h
          exact hcur c (List.mem_reverse.mp hc)
        · exact ih [] (by simp) t h c hc
    · rename_i hsp
      refine ih (a :: cur) ?_ t ht c hc
      intro d hd
      rcases List.mem_cons.mp hd with h | h
      · subst h; simpa using hsp
      · exact hcur d h

theorem Fields_no_space (s f : String) (hf : f ∈ Fields s) :
    ∀ c ∈ f.data, isSpace c = false := by
  unfold Fields at hf
  obtain ⟨t, ht, rfl⟩ := List.mem_map.mp hf
  exact fieldsAux_no_space s.data [] (by simp) t ht

theorem Fields_no_newline (s f : String) (hf : f ∈ Fields s) : '\n' ∉ f.data := by
  intro h
  have := Fields_no_space s f hf '\n' h
  revert this
  decide

/-! ## The claims about `/pin_package` -/

/-- C1: a POST request whose `ghurl`, after the removal of the first `http://`
and then of the first `https://`, does not start with `github.com/` is answered
with status 400; the audit log and the map of recent pins are unchanged and no
external call (metadata fetch, `Refs`, `Pin`, log write) is made. -/
theorem pinPackage_rejects_other_hosts (sh : World) (st : State) (r : Request)
    (hm : r.Method = "POST")
    (hp : HasPrefix
      (Replace1 (Replace1 (r.FormValue "ghurl") "http://" "") "https://" "")
      "github.com/" = false) :
    (pinPackage sh st r).w.status = 400 ∧
    (pinPackage sh st r).st.log = st.log ∧
    (pinPackage sh st r).st.recent = st.recent ∧
    (pinPackage sh st r).calls = [] := by
  rw [pinPackage_of_rejected sh st r hm hp]
  exact ⟨rfl, rfl, rfl, rfl⟩

/-- The theorem of C1 on the request that submits `https://gitlab.com/acme/widget`. -/
theorem pinPackage_rejects_other_hosts_witness :
    (pinPackage widgetWorld emptyState gitlabRequest).w.status = 400 ∧
    (pinPackage widgetWorld emptyState gitlabRequest).st.log = emptyState.log ∧
    (pinPackage widgetWorld emptyState gitlabRequest).st.recent = emptyState.recent ∧
    (pinPackage widgetWorld emptyState gitlabRequest).calls = [] :=
  pinPackage_rejects_other_hosts widgetWorld emptyState gitlabRequest (by decide) (by decide)

/-- C2: for a fetched metadata body, if `strings.Fields` yields exactly two
tokens `V` and `H`, the handler goes on with version `V` and content identifier
`H`: the preamble it writes names them in this order, the enumeration is
requested for `H`, and the record a successful run stores has `Hash = H` and
`Version = V`.  If the body has any other number of tokens, the response is 400
and neither the log nor the map changes, and no call but the fetch is made. -/
theorem pinPackage_resolves_two_fields (sh : World) (st : State) (r : Request)
    (c : Nat) (out : String)
    (hm : r.Method = "POST") (hp : HasPrefix (normalized r) "github.com/" = true)
    (hg : sh.Get (lastpubverUrl r) = .resp c (.ok out)) :
    (∀ V H, Fields out = [V, H] →
      (pinPackage sh st r).calls.take 2 = [.get (lastpubverUrl r), .refs H] ∧
      (∃ rest, (pinPackage sh st r).w.body = preamble (normalized r) V H ++ rest) ∧
      (∀ refs, sh.Refs H = .ok refs → sh.Pin H = none →
        sh.Fprintf (logLine (normalized r) H V) = .ok →
        (pinPackage sh st r).st.recent.lookup (normalized r) =
          some { Url := normalized r, Hash := H, Version := V })) ∧
    ((Fields out).length ≠ 2 →
      (pinPackage sh st r).w.status = 400 ∧
      (pinPackage sh st r).st.log = st.log ∧
      (pinPackage sh st r).st.recent = st.recent ∧
      (pinPackage sh st r).calls = [.get (lastpubverUrl r)]) := by
  constructor
  · intro V H hf
    rcases hR : sh.Refs H with e | refs
    · obtain ⟨-, h2, -, h4⟩ := pinPackage_of_refs_err sh st r c out V H e hm hp hg hf hR
      refine ⟨by rw [h2]; rfl, ⟨_, h4⟩, ?_⟩
      intro refs h; cases h
    rcases hP : sh.Pin H with _ | e
    swap
    · obtain ⟨-, h2, -, h4⟩ :=
        pinPackage_of_pin_err sh st r c out V H e refs hm hp hg hf hR hP
      refine ⟨by rw [h2]; rfl, ⟨_, by rw [h4]; simp only [String.append_assoc]; rfl⟩, ?_⟩
      intro refs _ h; cases h
    rcases hW : sh.Fprintf (logLine (normalized r) H V) with _ | ⟨n, e⟩
    · obtain ⟨-, h2, h3, -, h5⟩ :=
        pinPackage_of_success sh st r c out V H refs hm hp hg hf hR hP hW
      refine ⟨by rw [h3]; rfl, ⟨_, by rw [h5]; simp only [String.append_assoc]; rfl⟩, ?_⟩
      intro _ _ _ _
      rw [h2, AList.lookup_insert]
    · obtain ⟨-, -, h3, -, h5⟩ :=
        pinPackage_of_log_err sh st r c n out V H e refs hm hp hg hf hR hP hW
      refine ⟨by rw [h3]; rfl, ⟨_, by rw [h5]; simp only [String.append_assoc]; rfl⟩, ?_⟩
      intro _ _ _ h; cases h
  · intro hl
    rw [pinPackage_of_bad_fields sh st r c out hm hp hg hl]
    exact ⟨rfl, rfl, rfl, rfl⟩

/-- The theorem of C2 on the metadata body `1.2.3 QmAbc123`. -/
theorem pinPackage_resolves_two_fields_witness :
    (∀ V H, Fields "1.2.3 QmAbc123" = [V, H] →
      (pinPackage widgetWorld emptyState widgetRequest).calls.take 2 =
        [.get (lastpubverUrl widgetRequest), .refs H] ∧
      (∃ rest, (pinPackage widgetWorld emptyState widgetRequest).w.body =
        preamble (normalized widgetRequest) V H ++ rest) ∧
      (∀ refs, widgetWorld.Refs H = .ok refs → widgetWorld.Pin H = none →
        widgetWorld.Fprintf (logLine (normalized widgetRequest) H V) = .ok →
        (pinPackage widgetWorld emptyState widgetRequest).st.recent.lookup
            (normalized widgetRequest) =
          some { Url := normalized widgetRequest, Hash := H, Version := V })) ∧
    ((Fields "1.2.3 QmAbc123").length ≠ 2 →
      (pinPackage widgetWorld emptyState widgetRequest).w.status = 400 ∧
      (pinPackage widgetWorld emptyState widgetRequest).st.log = emptyState.log ∧
      (pinPackage widgetWorld emptyState widgetRequest).st.recent = emptyState.recent ∧
      (pinPackage widgetWorld emptyState widgetRequest).calls =
        [.get (lastpubverUrl widgetRequest)]) :=
  pinPackage_resolves_two_fields widgetWorld emptyState widgetRequest 200 "1.2.3 QmAbc123"
    (by decide) (by decide) rfl

/-- The example of the one-field metadata file: the response is 400 with the
message about the format, and nothing but the fetch has happened. -/
theorem pinPackage_one_token_example :
    Fields "onlyonetoken" = ["onlyonetoken"] ∧
    (pinPackage oneTokenWorld emptyState widgetRequest).w.status = 400 ∧
    (pinPackage oneTokenWorld emptyState widgetRequest).w.body =
      "incorrectly formatted lastpubver in repo\n" ∧
    (pinPackage oneTokenWorld emptyState widgetRequest).st.log = emptyState.log ∧
    (pinPackage oneTokenWorld emptyState widgetRequest).st.recent = emptyState.recent ∧
    (pinPackage oneTokenWorld emptyState widgetRequest).calls =
      [.get (lastpubverUrl widgetRequest)] :=
  ⟨by decide, by decide, by decide, by decide, rfl, by decide⟩

/-- C3 (as the code has it): when validation, resolution, enumeration, pin and
log write all succeed, with normalized URL `u`, version `v` and content
identifier `h`, the log afterwards is the log before followed by the text
`u v h` and a newline, earlier content untouched; the appended text is one
line exactly when `u` holds no newline (`v` and `h` never hold one).  The map
afterwards is the map before with `u` mapped to the record
`{Url: u, Hash: h, Version: v}`: the record of `u` is replaced, every other
key keeps its record, and the number of entries grows by one if `u` was absent
and is unchanged otherwise. -/
theorem pinPackage_commits_and_records (sh : World) (st : State) (r : Request)
    (c : Nat) (out v h : String) (refs : List String)
    (hm : r.Method = "POST") (hp : HasPrefix (normalized r) "github.com/" = true)
    (hg : sh.Get (lastpubverUrl r) = .resp c (.ok out)) (hf : Fields out = [v, h])
    (hR : sh.Refs h = .ok refs) (hP : sh.Pin h = none)
    (hW : sh.Fprintf (logLine (normalized r) h v) = .ok) :
    (∃ line : String, (pinPackage sh st r).st.log = st.log ++ (line ++ "\n") ∧
      line = normalized r ++ " " ++ v ++ " " ++ h ∧
      ('\n' ∈ line.data ↔ '\n' ∈ (normalized r).data)) ∧
    (pinPackage sh st r).st.recent =
      st.recent.insert (normalized r) { Url := normalized r, Hash := h, Version := v } ∧
    (pinPackage sh st r).st.recent.lookup (normalized r) =
      some { Url := normalized r, Hash := h, Version := v } ∧
    (∀ k, k ≠ normalized r →
      (pinPackage sh st r).st.recent.lookup k = st.recent.lookup k) ∧
    (pinPackage sh st r).st.recent.keys.length =
      if normalized r ∈ st.recent then st.recent.keys.length
      else st.recent.keys.length + 1 := by
  obtain ⟨h1, h2, -, -, -⟩ :=
    pinPackage_of_success sh st r c out v h refs hm hp hg hf hR hP hW
  refine ⟨⟨normalized r ++ " " ++ v ++ " " ++ h, ?_, rfl, ?_⟩, h2, ?_, ?_, ?_⟩
  · rw [h1]; rfl
  · have hv : '\n' ∉ v.data := Fields_no_newline out v (by simp [hf])
    have hh : '\n' ∉ h.data := Fields_no_newline out h (by simp [hf])
    have hs : '\n' ∉ " ".data := by decide
    simp only [String.data_append, List.mem_append, hv, hh, hs, or_false]
  · rw [h2, AList.lookup_insert]
  · intro k hk
    rw [h2, AList.lookup_insert_ne hk]
  · rw [h2, AList.keys_insert]
    split
    · rename_i hmem
      have hmem2 : normalized r ∈ st.recent.keys := AList.mem_keys.mp hmem
      rw [List.length_cons, List.length_erase_of_mem hmem2]
      have : 0 < st.recent.keys.length := List.length_pos_of_mem hmem2
      omega
    · rename_i hmem
      have hmem2 : normalized r ∉ st.recent.keys := fun hx => hmem (AList.mem_keys.mpr hx)
      rw [List.erase_of_not_mem hmem2, List.length_cons]

/-- The theorem of C3 on the first pin of `acme/widget`. -/
theorem pinPackage_commits_and_records_witness :
    (∃ line : String,
      (pinPackage widgetWorld emptyState widgetRequest).st.log =
        emptyState.log ++ (line ++ "\n") ∧
      line = normalized widgetRequest ++ " " ++ "1.2.3" ++ " " ++ "QmAbc123" ∧
      ('\n' ∈ line.data ↔ '\n' ∈ (normalized widgetRequest).data)) ∧
    (pinPackage widgetWorld emptyState widgetRequest).st.recent =
      emptyState.recent.insert (normalized widgetRequest)
        { Url := normalized widgetRequest, Hash := "QmAbc123", Version := "1.2.3" } ∧
    (pinPackage widgetWorld emptyState widgetRequest).st.recent.lookup
        (normalized widgetRequest) =
      some { Url := normalized widgetRequest, Hash := "QmAbc123", Version := "1.2.3" } ∧
    (∀ k, k ≠ normalized widgetRequest →
      (pinPackage widgetWorld emptyState widgetRequest).st.recent.lookup k =
        emptyState.recent.lookup k) ∧
    (pinPackage widgetWorld emptyState widgetRequest).st.recent.keys.length =
      if normalized widgetRequest ∈ emptyState.recent then emptyState.recent.keys.length
      else emptyState.recent.keys.length + 1 :=
  pinPackage_commits_and_records widgetWorld emptyState widgetRequest 200
    "1.2.3 QmAbc123" "1.2.3" "QmAbc123" ["QmAbc123", "QmDef456"]
    (by decide) (by decide) rfl (by decide) rfl rfl rfl

/-- C3 fails as stated: the request whose `ghurl` is
`github.com/o/r/master/.gx/lastpubver#`, a newline and `FORGED 9.9.9 QmEvil`
passes validation, and when resolution, enumeration, pin and log write succeed
the log gains two lines, so the text appended is not one newline-terminated
line. -/
theorem pinPackage_two_lines_counterexample :
    forgedRequest.Method = "POST" ∧
    HasPrefix (normalized forgedRequest) "github.com/" = true ∧
    widgetWorld.Get (lastpubverUrl forgedRequest) = .resp 200 (.ok "1.2.3 QmAbc123") ∧
    Fields "1.2.3 QmAbc123" = ["1.2.3", "QmAbc123"] ∧
    widgetWorld.Refs "QmAbc123" = .ok ["QmAbc123", "QmDef456"] ∧
    widgetWorld.Pin "QmAbc123" = none ∧
    widgetWorld.Fprintf (logLine (normalized forgedRequest) "QmAbc123" "1.2.3") = .ok ∧
    (pinPackage widgetWorld emptyState forgedRequest).st.log =
      emptyState.log ++ ("github.com/o/r/master/.gx/lastpubver#" ++ "\n") ++
        ("FORGED 9.9.9 QmEvil 1.2.3 QmAbc123" ++ "\n") ∧
    ¬ ∃ line : String, '\n' ∉ line.data ∧
      (pinPackage widgetWorld emptyState forgedRequest).st.log =
        emptyState.log ++ (line ++ "\n") := by
  refine ⟨by decide, by decide, by decide, by decide, by decide, by decide, by decide,
    by decide, ?_⟩
  rintro ⟨line, hn, he⟩
  have hlog : (pinPackage widgetWorld emptyState forgedRequest).st.log =
      "github.com/o/r/master/.gx/lastpubver#\nFORGED 9.9.9 QmEvil 1.2.3 QmAbc123\n" := by
    decide
  rw [hlog] at he
  have hd := congrArg (fun s : String => s.data.dropLast) he
  have hl : line.data =
      "github.com/o/r/master/.gx/lastpubver#\nFORGED 9.9.9 QmEvil 1.2.3 QmAbc123".data := by
    have e1 : (emptyState.log ++ (line ++ "\n")).data.dropLast = line.data := by
      show ([] ++ (line.data ++ ['\n'])).dropLast = line.data
      rw [List.nil_append, List.dropLast_concat]
    rw [← e1]
    exact hd.symm
  rw [hl] at hn
  exact hn (by decide)

/-- C4 (as the code has it): the line a successful pin appends to the audit log
is the normalized URL, the version and the content identifier, in this order,
separated by single spaces and followed by a newline. -/
theorem pinPackage_log_line (sh : World) (st : State) (r : Request)
    (c : Nat) (out v h : String) (refs : List String)
    (hm : r.Method = "POST") (hp : HasPrefix (normalized r) "github.com/" = true)
    (hg : sh.Get (lastpubverUrl r) = .resp c (.ok out)) (hf : Fields out = [v, h])
    (hR : sh.Refs h = .ok refs) (hP : sh.Pin h = none)
    (hW : sh.Fprintf (logLine (normalized r) h v) = .ok) :
    (pinPackage sh st r).st.log =
      st.log ++ (normalized r ++ " " ++ v ++ " " ++ h ++ "\n") :=
  (pinPackage_of_success sh st r c out v h refs hm hp hg hf hR hP hW).1

/-- The theorem of C4 on the first pin of `acme/widget`. -/
theorem pinPackage_log_line_witness :
    (pinPackage widgetWorld emptyState widgetRequest).st.log =
      emptyState.log ++
        (normalized widgetRequest ++ " " ++ "1.2.3" ++ " " ++ "QmAbc123" ++ "\n") :=
  pinPackage_log_line widgetWorld emptyState widgetRequest 200
    "1.2.3 QmAbc123" "1.2.3" "QmAbc123" ["QmAbc123", "QmDef456"]
    (by decide) (by decide) rfl (by decide) rfl rfl rfl

/-- C4 fails as stated: on the successful pin of `github.com/acme/widget` with
version `1.2.3` and content identifier `QmAbc123` the appended line has the
version before the content identifier. -/
theorem pinPackage_log_line_order_counterexample :
    normalized widgetRequest = "github.com/acme/widget" ∧
    Fields "1.2.3 QmAbc123" = ["1.2.3", "QmAbc123"] ∧
    (pinPackage widgetWorld emptyState widgetRequest).calls =
      [.get (lastpubverUrl widgetRequest), .refs "QmAbc123", .pin "QmAbc123",
        .write "github.com/acme/widget 1.2.3 QmAbc123\n"] ∧
    (pinPackage widgetWorld emptyState widgetRequest).st.log ≠
      emptyState.log ++ "github.com/acme/widget QmAbc123 1.2.3\n" := by
  decide

/-- C5 (as the code has it): for the POST request with
`ghurl = "https://github.com/acme/widget"`, metadata body `1.2.3 QmAbc123`,
enumeration `[QmAbc123, QmDef456]`, a successful pin and log write: the metadata
is fetched for `acme/widget`, the appended log line is
`github.com/acme/widget 1.2.3 QmAbc123`, the record stored under the key
`github.com/acme/widget` is `{Url: "github.com/acme/widget", Hash: "QmAbc123",
Version: "1.2.3"}` (only the scheme is stripped from the key), and the response
is 200 with a body that lists both identifiers in enumeration order and ends
with the success marker followed by the back link. -/
theorem pinPackage_acme_widget (sh : World) (st : State) (r : Request) (c : Nat)
    (hm : r.Method = "POST")
    (hu : r.FormValue "ghurl" = "https://github.com/acme/widget")
    (hg : sh.Get "https://raw.githubusercontent.com/acme/widget/master/.gx/lastpubver" =
      .resp c (.ok "1.2.3 QmAbc123"))
    (hR : sh.Refs "QmAbc123" = .ok ["QmAbc123", "QmDef456"])
    (hP : sh.Pin "QmAbc123" = none)
    (hW : sh.Fprintf "github.com/acme/widget 1.2.3 QmAbc123\n" = .ok) :
    (pinPackage sh st r).st.log = st.log ++ "github.com/acme/widget 1.2.3 QmAbc123\n" ∧
    (pinPackage sh st r).st.recent =
      st.recent.insert "github.com/acme/widget"
        { Url := "github.com/acme/widget", Hash := "QmAbc123", Version := "1.2.3" } ∧
    (pinPackage sh st r).w.status = 200 ∧
    (pinPackage sh st r).w.body =
      "<!DOCTYPE html>\n<p>pinning github.com/acme/widget version 1.2.3: QmAbc123</p><br>" ++
      "<ul>\n<li>QmAbc123</li><li>QmDef456</li></ul>\n" ++
      "<p>fetched all deps!<br>calling pin now...</p>\n" ++
      "<p>success!</p>\n<a href='/'>back</a>\n" := by
  have hn : normalized r = "github.com/acme/widget" := by
    unfold normalized; rw [hu]; decide
  have hl : lastpubverUrl r =
      "https://raw.githubusercontent.com/acme/widget/master/.gx/lastpubver" := by
    unfold lastpubverUrl; rw [hn]; decide
  have hf : Fields "1.2.3 QmAbc123" = ["1.2.3", "QmAbc123"] := by decide
  obtain ⟨h1, h2, -, h4, h5⟩ :=
    pinPackage_of_success sh st r c "1.2.3 QmAbc123" "1.2.3" "QmAbc123"
      ["QmAbc123", "QmDef456"] hm (by rw [hn]; decide) (by rw [hl]; exact hg) hf hR hP
      (by rw [hn]; exact hW)
  rw [hn] at h1 h2 h5
  exact ⟨h1, h2, h4, h5⟩

/-- The theorem of C5 in the world where every step succeeds, on an empty state. -/
theorem pinPackage_acme_widget_witness :
    (pinPackage widgetWorld emptyState widgetRequest).st.log =
      emptyState.log ++ "github.com/acme/widget 1.2.3 QmAbc123\n" ∧
    (pinPackage widgetWorld emptyState widgetRequest).st.recent =
      emptyState.recent.insert "github.com/acme/widget"
        { Url := "github.com/acme/widget", Hash := "QmAbc123", Version := "1.2.3" } ∧
    (pinPackage widgetWorld emptyState widgetRequest).w.status = 200 ∧
    (pinPackage widgetWorld emptyState widgetRequest).w.body =
      "<!DOCTYPE html>\n<p>pinning github.com/acme/widget version 1.2.3: QmAbc123</p><br>" ++
      "<ul>\n<li>QmAbc123</li><li>QmDef456</li></ul>\n" ++
      "<p>fetched all deps!<br>calling pin now...</p>\n" ++
      "<p>success!</p>\n<a href='/'>back</a>\n" :=
  pinPackage_acme_widget widgetWorld emptyState widgetRequest 200 rfl rfl rfl rfl rfl rfl

/-- C5 fails as stated: on the request of the example the appended log line is
not `acme/widget QmAbc123 1.2.3`, the map holds no record under `acme/widget`,
and the record stored has the URL `github.com/acme/widget`. -/
theorem pinPackage_acme_widget_counterexample :
    widgetRequest.FormValue "ghurl" = "https://github.com/acme/widget" ∧
    (pinPackage widgetWorld emptyState widgetRequest).st.log ≠
      "acme/widget QmAbc123 1.2.3\n" ∧
    (pinPackage widgetWorld emptyState widgetRequest).st.recent.lookup "acme/widget" =
      none ∧
    values (pinPackage widgetWorld emptyState widgetRequest).st.recent =
      [{ Url := "github.com/acme/widget", Hash := "QmAbc123", Version := "1.2.3" }] := by
  decide


/-- C6: the side effects of a request are gated in order.  The log changes only
on a run that called `sh.Pin` with a nil result before the log write; the map
changes only on a run whose pin and whose log write both succeeded.  When
resolution fails the handler stops after the fetch, when `sh.Refs` fails it
stops without calling `sh.Pin`, and when `sh.Pin` fails it stops without
writing the log: in all three cases the state is unchanged.  When the log write
fails the map is unchanged. -/
theorem pinPackage_effects_gated (sh : World) (st : State) (r : Request) :
    ((pinPackage sh st r).st.log ≠ st.log →
      ∃ h line, (pinPackage sh st r).calls =
          [.get (lastpubverUrl r), .refs h, .pin h, .write line] ∧
        sh.Pin h = none) ∧
    ((pinPackage sh st r).st.recent ≠ st.recent →
      ∃ h line, (pinPackage sh st r).calls =
          [.get (lastpubverUrl r), .refs h, .pin h, .write line] ∧
        sh.Pin h = none ∧ sh.Fprintf line = .ok) ∧
    (resolutionFails sh r = true →
      (pinPackage sh st r).st = st ∧
      ∀ c ∈ (pinPackage sh st r).calls, c = .get (lastpubverUrl r)) ∧
    (∀ h e, .refs h ∈ (pinPackage sh st r).calls → sh.Refs h = .err e →
      (pinPackage sh st r).st = st ∧
      (pinPackage sh st r).calls = [.get (lastpubverUrl r), .refs h]) ∧
    (∀ h e, .pin h ∈ (pinPackage sh st r).calls → sh.Pin h = some e →
      (pinPackage sh st r).st = st ∧
      (pinPackage sh st r).calls = [.get (lastpubverUrl r), .refs h, .pin h]) ∧
    (∀ line n e, .write line ∈ (pinPackage sh st r).calls → sh.Fprintf line = .err n e →
      (pinPackage sh st r).st.recent = st.recent) := by
  rcases pinPackage_cases sh st r with
    ⟨-, hs, hc, -⟩ | ⟨-, -, hs, hc, -⟩ | ⟨-, -, hres, hs, hc, -⟩ |
    ⟨-, -, hres, h, e, hR, hs, hc, -⟩ | ⟨-, -, hres, h, e, refs, hR, hP, hs, hc, -⟩ |
    ⟨-, -, hres, h, v, n, e, refs, hR, hP, hW, hrec, hlog, hc, -⟩ |
    ⟨-, -, hres, h, v, refs, hR, hP, hW, hrec, hlog, hc, -⟩
  · simp [hs, hc]
  · simp [hs, hc]
  · simp [hs, hc]
  · simp only [hs, hc, hres]
    simp
    intro h1 _ hh _
    exact hh.symm
  · simp only [hs, hc, hres]
    simp
    exact ⟨fun h1 e2 hh hx => by subst hh; simp [hR] at hx, fun h1 _ hh _ => hh.symm⟩
  · simp only [hc, hres, hrec]
    simp
    exact ⟨fun _ => hP, fun h1 e2 hh hx => by subst hh; simp [hR] at hx,
      fun h1 e2 hh hx => by subst hh; simp [hP] at hx⟩
  · simp only [hc, hres]
    simp
    exact ⟨fun _ => hP, fun _ => ⟨h, _, ⟨rfl, rfl⟩, hP, hW⟩,
      fun h1 e2 hh hx => by subst hh; simp [hR] at hx,
      fun h1 e2 hh hx => by subst hh; simp [hP] at hx,
      fun line n e hl hx => by subst hl; simp [hW] at hx⟩

/-- C7 fails on the code: a POST request for an accepted URL whose metadata
resolves and whose enumeration fails is answered with status 200, not 500.  The
status line went out with the first write of the preamble, so the
`WriteHeader(500)` inside `http.Error` is ignored and only the error text is
appended to the body. -/
theorem pinPackage_status_after_preamble :
    widgetRequest.Method = "POST" ∧
    HasPrefix (normalized widgetRequest) "github.com/" = true ∧
    resolutionFails refsDownWorld widgetRequest = false ∧
    refsDownWorld.Refs "QmAbc123" = .err "ipfs: connection refused" ∧
    (pinPackage refsDownWorld emptyState widgetRequest).calls =
      [.get (lastpubverUrl widgetRequest), .refs "QmAbc123"] ∧
    (pinPackage refsDownWorld emptyState widgetRequest).w.status = 200 ∧
    (pinPackage refsDownWorld emptyState widgetRequest).w.body =
      "<!DOCTYPE html>\n<p>pinning github.com/acme/widget version 1.2.3: QmAbc123</p><br>" ++
      "ipfs: connection refused\n" := by
  decide

/-- The status of every response of `/pin_package`: 403 for a method other than
POST, 400 for a rejected URL or a failed resolution, 200 otherwise, whether or
not enumeration, pin and log write succeed. -/
theorem pinPackage_status (sh : World) (st : State) (r : Request) :
    (pinPackage sh st r).w.status =
      if r.Method ≠ "POST" then 403
      else if HasPrefix (normalized r) "github.com/" = false ∨ resolutionFails sh r = true
      then 400 else 200 := by
  rcases pinPackage_cases sh st r with
    ⟨hm, -, -, hw⟩ | ⟨hm, hp, -, -, hw⟩ | ⟨hm, hp, hres, -, -, hw⟩ |
    ⟨hm, hp, hres, h, e, -, -, -, hw⟩ | ⟨hm, hp, hres, h, e, refs, -, -, -, -, hw⟩ |
    ⟨hm, hp, hres, h, v, n, e, refs, -, -, -, -, -, -, hw⟩ |
    ⟨hm, hp, hres, h, v, refs, -, -, -, -, -, -, hw⟩
  · simp [hm, hw]
  · simp [hm, hp, hw]
  all_goals simp [hm, hp, hres, hw]

/-! ## `encoding/json` and its reader -/

theorem hexVal_hexDigit (d : Nat) (h : d < 16) : hexVal (hexDigit d) = some d := by
  interval_cases d <;> decide

theorem readChars_plain (acc : List Char) (c : Char) (cs : List Char) :
    readChars .plain acc (c :: cs) =
      if c = '"' then some (acc.reverse, cs)
      else if c = '\\' then readChars .esc acc cs
      else if c.toNat < 0x20 then none
      else readChars .plain (c :: acc) cs := by
  rw [readChars]

theorem readChars_esc (acc : List Char) (c : Char) (cs : List Char) :
    readChars .esc acc (c :: cs) =
      if c = 'u' then readChars (.hex 4 0) acc cs
      else
        match simpleEscape c with
        | some d => readChars .plain (d :: acc) cs
        | none => none := by
  rw [readChars]

theorem readChars_hex (k v : Nat) (acc : List Char) (c : Char) (cs : List Char) :
    readChars (.hex k v) acc (c :: cs) =
      match hexVal c with
      | none => none
      | some d =>
        if k ≤ 1 then readChars .plain (Char.ofNat (16 * v + d) :: acc) cs
        else readChars (.hex (k - 1) (16 * v + d)) acc cs := by
  rw [readChars]

theorem readChars_two (e d : Char) (acc t : List Char)
    (he : e ≠ 'u') (hd : simpleEscape e = some d) :
    readChars .plain acc ('\\' :: e :: t) = readChars .plain (d :: acc) t := by
  rw [readChars_plain, if_neg (by decide), if_pos rfl, readChars_esc, if_neg he, hd]

theorem readChars_u4 (a b x y : Char) (va vb vx vy : Nat) (acc t : List Char)
    (ha : hexVal a = some va) (hb : hexVal b = some vb) (hx : hexVal x = some vx)
    (hy : hexVal y = some vy) :
    readChars .plain acc ('\\' :: 'u' :: a :: b :: x :: y :: t) =
      readChars .plain (Char.ofNat (16 * (16 * (16 * (16 * 0 + va) + vb) + vx) + vy) :: acc)
        t := by
  rw [readChars_plain, if_neg (by decide), if_pos rfl, readChars_esc, if_pos rfl,
    readChars_hex, ha]
  simp only [show ¬ (4 ≤ 1) by decide, if_false]
  rw [readChars_hex, hb]
  simp only [show ¬ (4 - 1 ≤ 1) by decide, if_false]
  rw [readChars_hex, hx]
  simp only [show ¬ (4 - 1 - 1 ≤ 1) by decide, if_false]
  rw [readChars_hex, hy]
  simp only [show (4 - 1 - 1 - 1 ≤ 1) by decide, if_true]

theorem readChars_jsonEscape (c : Char) (acc t : List Char) :
    readChars .plain acc (jsonEscape c ++ t) = readChars .plain (c :: acc) t := by
  unfold jsonEscape
  by_cases h1 : c = '"'
  · subst h1; exact readChars_two _ _ _ _ (by decide) (by decide)
  by_cases h2 : c = '\\'
  · subst h2; exact readChars_two _ _ _ _ (by decide) (by decide)
  by_cases h3 : c = '\x08'
  · subst h3; exact readChars_two _ _ _ _ (by decide) (by decide)
  by_cases h4 : c = '\x0c'
  · subst h4; exact readChars_two _ _ _ _ (by decide) (by decide)
  by_cases h5 : c = '\n'
  · subst h5; exact readChars_two _ _ _ _ (by decide) (by decide)
  by_cases h6 : c = '\r'
  · subst h6; exact readChars_two _ _ _ _ (by decide) (by decide)
  by_cases h7 : c = '\t'
  · subst h7; exact readChars_two _ _ _ _ (by decide) (by decide)
  rw [if_neg h1, if_neg h2, if_neg h3, if_neg h4, if_neg h5, if_neg h6, if_neg h7]
  by_cases h8 : c.toNat < 0x20 ∨ c = '<' ∨ c = '>' ∨ c = '&'
  · rw [if_pos h8]
    have hlt : c.toNat < 256 := by
      rcases h8 with h | h | h | h
      · omega
      · subst h; decide
      · subst h; decide
      · subst h; decide
    have e := readChars_u4 '0' '0' (hexDigit (c.toNat / 16)) (hexDigit (c.toNat % 16))
      0 0 (c.toNat / 16) (c.toNat % 16) acc t (by decide) (by decide)
      (hexVal_hexDigit _ (by omega)) (hexVal_hexDigit _ (by omega))
    have hv : 16 * (16 * (16 * (16 * 0 + 0) + 0) + c.toNat / 16) + c.toNat % 16 = c.toNat := by
      omega
    rw [hv, Char.ofNat_toNat] at e
    exact e
  rw [if_neg h8]
  by_cases h9 : c.toNat = 0x2028
  · rw [if_pos h9]
    have e := readChars_u4 '2' '0' '2' '8' 2 0 2 8 acc t
      (by decide) (by decide) (by decide) (by decide)
    have hv : 16 * (16 * (16 * (16 * 0 + 2) + 0) + 2) + 8 = c.toNat := by omega
    rw [hv, Char.ofNat_toNat] at e
    exact e
  rw [if_neg h9]
  by_cases h10 : c.toNat = 0x2029
  · rw [if_pos h10]
    have e := readChars_u4 '2' '0' '2' '9' 2 0 2 9 acc t
      (by decide) (by decide) (by decide) (by decide)
    have hv : 16 * (16 * (16 * (16 * 0 + 2) + 0) + 2) + 9 = c.toNat := by omega
    rw [hv, Char.ofNat_toNat] at e
    exact e
  rw [if_neg h10]
  have h11 : ¬ c.toNat < 0x20 := fun h => h8 (Or.inl h)
  show readChars .plain acc (c :: t) = _
  rw [readChars_plain, if_neg h1, if_neg h2, if_neg h11]

theorem readChars_jsonCharsFrom (s : Bytes) :
    ∀ (k : Nat) (acc t : List Char),
      readChars .plain acc (jsonCharsFrom k s ++ '"' :: t) =
        some (acc.reverse ++ runesFrom k s, t) := by
  induction s with
  | nil =>
    intro k acc t
    simp [jsonCharsFrom, runesFrom, readChars_plain]
  | cons b s ih =>
    intro k acc t
    cases k with
    | succ k => simpa [jsonCharsFrom, runesFrom] using ih k acc t
    | zero =>
      rw [jsonCharsFrom, runesFrom, List.append_assoc]
      split
      · rename_i h
        have e := readChars_u4 'f' 'f' 'f' 'd' 15 15 15 13 acc
          (jsonCharsFrom ((decodeRune (b :: s)).2 - 1) s ++ '"' :: t)
          (by decide) (by decide) (by decide) (by decide)
        rw [show (['\\', 'u', 'f', 'f', 'f', 'd'] ++
            (jsonCharsFrom ((decodeRune (b :: s)).2 - 1) s ++ '"' :: t)) =
          '\\' :: 'u' :: 'f' :: 'f' :: 'f' :: 'd' ::
            (jsonCharsFrom ((decodeRune (b :: s)).2 - 1) s ++ '"' :: t) from rfl,
          e, ih, h.1]
        simp
      · rw [readChars_jsonEscape, ih]
        simp

theorem readString_jsonString (s : Bytes) (t : List Char) :
    readString (jsonString s ++ t) = some (runes s, t) := by
  unfold jsonString
  simp only [List.cons_append, List.append_assoc, List.singleton_append, readString, if_true]
  rw [readChars_jsonCharsFrom]
  rfl

theorem readLit_append (lit t : List Char) : readLit lit (lit ++ t) = some t := by
  unfold readLit
  rw [if_pos (List.isPrefixOf_iff_prefix.mpr (List.prefix_append lit t)), List.drop_left]

theorem readPkgInfo_jsonPkgInfo (p : rawPkgInfo) (t : List Char) :
    readPkgInfo (jsonPkgInfo p ++ t) = some (p.text, t) := by
  unfold readPkgInfo jsonPkgInfo
  simp only [List.append_assoc, readLit_append, readString_jsonString]
  rfl

theorem jsonPkgInfo_head (p : rawPkgInfo) :
    ∃ rest, jsonPkgInfo p = '\x7b' :: rest := by
  unfold jsonPkgInfo
  exact ⟨_, rfl⟩

theorem jsonElems_head (p : rawPkgInfo) (l : List rawPkgInfo) :
    ∃ rest, jsonElems (p :: l) = '\x7b' :: rest := by
  obtain ⟨r, hr⟩ := jsonPkgInfo_head p
  cases l with
  | nil => exact ⟨r, by simp [jsonElems, hr]⟩
  | cons q l => exact ⟨r ++ ',' :: jsonElems (q :: l), by simp [jsonElems, hr]⟩

theorem length_le_jsonElems (l : List rawPkgInfo) : l.length ≤ (jsonElems l).length := by
  induction l with
  | nil => simp
  | cons p l ih =>
    obtain ⟨r, hr⟩ := jsonPkgInfo_head p
    cases l with
    | nil => simp [jsonElems, hr]
    | cons q l =>
      simp only [jsonElems, List.length_append, List.length_cons, hr] at ih ⊢
      omega

theorem readElems_jsonElems (l : List rawPkgInfo) :
    ∀ (p : rawPkgInfo) (fuel : Nat) (t : List Char), l.length < fuel →
      readElems fuel (jsonElems (p :: l) ++ ']' :: t) =
        some ((p :: l).map rawPkgInfo.text, t) := by
  induction l with
  | nil =>
    intro p fuel t hf
    obtain ⟨n, rfl⟩ : ∃ n, fuel = n + 1 := ⟨fuel - 1, by omega⟩
    simp [readElems, jsonElems, readPkgInfo_jsonPkgInfo]
  | cons q l ih =>
    intro p fuel t hf
    obtain ⟨n, rfl⟩ : ∃ n, fuel = n + 1 := ⟨fuel - 1, by omega⟩
    have hn : l.length < n := by simpa using hf
    simp [readElems, jsonElems, readPkgInfo_jsonPkgInfo, ih q n t hn]

theorem readArray_jsonMarshal (l : List rawPkgInfo) :
    readArray ⟨jsonMarshal (some l) ++ ['\n']⟩ = some (l.map rawPkgInfo.text) := by
  cases l with
  | nil => simp [readArray, jsonMarshal, jsonElems]
  | cons p l =>
    obtain ⟨r, hr⟩ := jsonElems_head p l
    have hlen := length_le_jsonElems (p :: l)
    have hne : jsonElems (p :: l) ++ [']', '\n'] ≠ [']', '\n'] := by
      rw [hr]; simp
    have hfuel : l.length < (jsonElems (p :: l) ++ [']', '\n']).length := by
      simp only [List.length_append, List.length_cons, List.length_nil] at hlen ⊢
      omega
    have := readElems_jsonElems l p _ ['\n'] hfuel
    simp only [readArray, jsonMarshal, List.cons_append, List.append_assoc,
      List.singleton_append, List.nil_append, if_true, if_neg hne, this]

theorem foldl_append_some (xs l : List rawPkgInfo) :
    xs.foldl Slice.append (some l) = some (l ++ xs) := by
  induction xs generalizing l with
  | nil => simp
  | cons x xs ih => simp [Slice.append, ih]

theorem foldl_append_none (x : rawPkgInfo) (xs : List rawPkgInfo) :
    (x :: xs).foldl Slice.append none = some (x :: xs) := by
  simp [Slice.append, foldl_append_some]

/-! ## UTF-8: valid text keeps its value -/

theorem toNat_ofNat_lt (n : Nat) (h : n < 256) : (UInt8.ofNat n).toNat = n := by
  show n % 256 = n
  omega

theorem toNat_range (c : Char) :
    c.toNat < 0xD800 ∨ (0xDFFF < c.toNat ∧ c.toNat < 0x110000) := by
  have := c.valid
  simp only [UInt32.isValidChar, Nat.isValidChar] at this
  exact this

theorem decodeRune_one (b0 : UInt8) (rest : Bytes) (h : b0.toNat < 0x80) :
    decodeRune (b0 :: rest) = (b0.toNat, 1) := by
  simp [decodeRune, h]

theorem decodeRune_two (b0 b1 : UInt8) (rest : Bytes)
    (h0 : 0xC2 ≤ b0.toNat ∧ b0.toNat < 0xE0) (h1 : 0x80 ≤ b1.toNat ∧ b1.toNat ≤ 0xBF) :
    decodeRune (b0 :: b1 :: rest) = (b0.toNat % 32 * 64 + b1.toNat % 64, 2) := by
  have a1 : ¬ b0.toNat < 0x80 := by omega
  have a2 : ¬ b0.toNat < 0xC2 := by omega
  simp only [decodeRune, if_neg a1, if_neg a2, if_pos h0.2, if_pos h1]

theorem decodeRune_three (b0 b1 b2 : UInt8) (rest : Bytes)
    (h0 : 0xE0 ≤ b0.toNat ∧ b0.toNat < 0xF0)
    (h1 : acceptLo b0.toNat ≤ b1.toNat ∧ b1.toNat ≤ acceptHi b0.toNat ∧
      0x80 ≤ b2.toNat ∧ b2.toNat ≤ 0xBF) :
    decodeRune (b0 :: b1 :: b2 :: rest) =
      (b0.toNat % 16 * 4096 + b1.toNat % 64 * 64 + b2.toNat % 64, 3) := by
  have a1 : ¬ b0.toNat < 0x80 := by omega
  have a2 : ¬ b0.toNat < 0xC2 := by omega
  have a3 : ¬ b0.toNat < 0xE0 := by omega
  simp only [decodeRune, if_neg a1, if_neg a2, if_neg a3, if_pos h0.2, if_pos h1]

theorem decodeRune_four (b0 b1 b2 b3 : UInt8) (rest : Bytes)
    (h0 : 0xF0 ≤ b0.toNat ∧ b0.toNat < 0xF5)
    (h1 : acceptLo b0.toNat ≤ b1.toNat ∧ b1.toNat ≤ acceptHi b0.toNat ∧
      0x80 ≤ b2.toNat ∧ b2.toNat ≤ 0xBF ∧ 0x80 ≤ b3.toNat ∧ b3.toNat ≤ 0xBF) :
    decodeRune (b0 :: b1 :: b2 :: b3 :: rest) =
      (b0.toNat % 8 * 262144 + b1.toNat % 64 * 4096 + b2.toNat % 64 * 64 +
        b3.toNat % 64, 4) := by
  have a1 : ¬ b0.toNat < 0x80 := by omega
  have a2 : ¬ b0.toNat < 0xC2 := by omega
  have a3 : ¬ b0.toNat < 0xE0 := by omega
  have a4 : ¬ b0.toNat < 0xF0 := by omega
  simp only [decodeRune, if_neg a1, if_neg a2, if_neg a3, if_neg a4, if_pos h0.2, if_pos h1]

theorem runesFrom_encodeRune (c : Char) (rest : Bytes) :
    runesFrom 0 (encodeRune c ++ rest) = c :: runesFrom 0 rest := by
  have hr := toNat_range c
  unfold encodeRune
  by_cases h1 : c.toNat < 0x80
  · simp only [if_pos h1, List.singleton_append]
    have e0 := toNat_ofNat_lt c.toNat (by omega)
    rw [runesFrom, decodeRune_one _ _ (by omega), e0, Char.ofNat_toNat]
    rfl
  by_cases h2 : c.toNat < 0x800
  · simp only [if_neg h1, if_pos h2, List.cons_append, List.nil_append]
    have e0 := toNat_ofNat_lt (0xC0 + c.toNat / 64) (by omega)
    have e1 := toNat_ofNat_lt (0x80 + c.toNat % 64) (by omega)
    rw [runesFrom, decodeRune_two _ _ _ (by omega) (by omega), e0, e1]
    have hv : (0xC0 + c.toNat / 64) % 32 * 64 + (0x80 + c.toNat % 64) % 64 = c.toNat := by
      omega
    simp only [hv, Char.ofNat_toNat, Nat.add_one_sub_one, runesFrom]
  by_cases h3 : c.toNat < 0x10000
  · simp only [if_neg h1, if_neg h2, if_pos h3, List.cons_append, List.nil_append]
    have e0 := toNat_ofNat_lt (0xE0 + c.toNat / 4096) (by omega)
    have e1 := toNat_ofNat_lt (0x80 + c.toNat / 64 % 64) (by omega)
    have e2 := toNat_ofNat_lt (0x80 + c.toNat % 64) (by omega)
    rw [runesFrom, decodeRune_three _ _ _ _ (by omega)
      (by rw [e0, e1, e2]; unfold acceptLo acceptHi; split_ifs <;> omega), e0, e1, e2]
    have hv : (0xE0 + c.toNat / 4096) % 16 * 4096 + (0x80 + c.toNat / 64 % 64) % 64 * 64 +
        (0x80 + c.toNat % 64) % 64 = c.toNat := by
      omega
    simp only [hv, Char.ofNat_toNat, runesFrom]
  · simp only [if_neg h1, if_neg h2, if_neg h3, List.cons_append, List.nil_append]
    have e0 := toNat_ofNat_lt (0xF0 + c.toNat / 262144) (by omega)
    have e1 := toNat_ofNat_lt (0x80 + c.toNat / 4096 % 64) (by omega)
    have e2 := toNat_ofNat_lt (0x80 + c.toNat / 64 % 64) (by omega)
    have e3 := toNat_ofNat_lt (0x80 + c.toNat % 64) (by omega)
    rw [runesFrom, decodeRune_four _ _ _ _ _ (by omega)
      (by rw [e0, e1, e2, e3]; unfold acceptLo acceptHi; split_ifs <;> omega),
      e0, e1, e2, e3]
    have hv : (0xF0 + c.toNat / 262144) % 8 * 262144 +
        (0x80 + c.toNat / 4096 % 64) % 64 * 4096 +
        (0x80 + c.toNat / 64 % 64) % 64 * 64 + (0x80 + c.toNat % 64) % 64 = c.toNat := by
      omega
    simp only [hv, Char.ofNat_toNat, runesFrom]

theorem runesFrom_utf8 (l : List Char) : runesFrom 0 (l.flatMap encodeRune) = l := by
  induction l with
  | nil => rfl
  | cons c l ih => rw [List.flatMap_cons, runesFrom_encodeRune, ih]

theorem runes_utf8 (s : String) : runes (utf8 s) = s := by
  unfold runes utf8
  rw [runesFrom_utf8]

theorem text_raw (p : pkgInfo) : p.raw.text = p := by
  cases p
  simp [pkgInfo.raw, rawPkgInfo.text, runes_utf8]


theorem ofNat_toNat_byte (b : UInt8) : UInt8.ofNat b.toNat = b :=
  UInt8.ext_iff.mpr (toNat_ofNat_lt _ (UInt8.toNat_lt b))

theorem toNat_ofNat_char (n : Nat) (h : n < 0xD800 ∨ (0xDFFF < n ∧ n < 0x110000)) :
    (Char.ofNat n).toNat = n := by
  have hv : n.isValidChar := h
  simp only [Char.ofNat, hv, Char.toNat, Char.ofNatAux, dite_true]
  rfl

theorem encodeRune_ne_nil (c : Char) : encodeRune c ≠ [] := by
  unfold encodeRune
  dsimp only
  split_ifs <;> simp

theorem decodeRune_encodeRune (c : Char) (rest : Bytes) :
    decodeRune (encodeRune c ++ rest) = (c.toNat, (encodeRune c).length) := by
  have hr := toNat_range c
  unfold encodeRune
  by_cases h1 : c.toNat < 0x80
  · simp only [if_pos h1, List.singleton_append, List.length_singleton]
    have e0 := toNat_ofNat_lt c.toNat (by omega)
    rw [decodeRune_one _ _ (by omega), e0]
  by_cases h2 : c.toNat < 0x800
  · simp only [if_neg h1, if_pos h2, List.cons_append, List.nil_append]
    have e0 := toNat_ofNat_lt (0xC0 + c.toNat / 64) (by omega)
    have e1 := toNat_ofNat_lt (0x80 + c.toNat % 64) (by omega)
    rw [decodeRune_two _ _ _ (by omega) (by omega), e0, e1]
    have hv : (0xC0 + c.toNat / 64) % 32 * 64 + (0x80 + c.toNat % 64) % 64 = c.toNat := by
      omega
    rw [hv]; rfl
  by_cases h3 : c.toNat < 0x10000
  · simp only [if_neg h1, if_neg h2, if_pos h3, List.cons_append, List.nil_append]
    have e0 := toNat_ofNat_lt (0xE0 + c.toNat / 4096) (by omega)
    have e1 := toNat_ofNat_lt (0x80 + c.toNat / 64 % 64) (by omega)
    have e2 := toNat_ofNat_lt (0x80 + c.toNat % 64) (by omega)
    rw [decodeRune_three _ _ _ _ (by omega)
      (by rw [e0, e1, e2]; unfold acceptLo acceptHi; split_ifs <;> omega), e0, e1, e2]
    have hv : (0xE0 + c.toNat / 4096) % 16 * 4096 + (0x80 + c.toNat / 64 % 64) % 64 * 64 +
        (0x80 + c.toNat % 64) % 64 = c.toNat := by
      omega
    rw [hv]; rfl
  · simp only [if_neg h1, if_neg h2, if_neg h3, List.cons_append, List.nil_append]
    have e0 := toNat_ofNat_lt (0xF0 + c.toNat / 262144) (by omega)
    have e1 := toNat_ofNat_lt (0x80 + c.toNat / 4096 % 64) (by omega)
    have e2 := toNat_ofNat_lt (0x80 + c.toNat / 64 % 64) (by omega)
    have e3 := toNat_ofNat_lt (0x80 + c.toNat % 64) (by omega)
    rw [decodeRune_four _ _ _ _ _ (by omega)
      (by rw [e0, e1, e2, e3]; unfold acceptLo acceptHi; split_ifs <;> omega),
      e0, e1, e2, e3]
    have hv : (0xF0 + c.toNat / 262144) % 8 * 262144 +
        (0x80 + c.toNat / 4096 % 64) % 64 * 4096 +
        (0x80 + c.toNat / 64 % 64) % 64 * 64 + (0x80 + c.toNat % 64) % 64 = c.toNat := by
      omega
    rw [hv]; rfl

theorem decodeRune_stray (b : UInt8) (rest : Bytes)
    (h : decodeRune (b :: rest) = (0xFFFD, 1)) (c : Char) : ¬ encodeRune c <+: b :: rest := by
  rintro ⟨t, ht⟩
  rw [← ht, decodeRune_encodeRune] at h
  have h1 : c.toNat = 0xFFFD := congrArg Prod.fst h
  have h2 : (encodeRune c).length = 1 := congrArg Prod.snd h
  unfold encodeRune at h2
  rw [if_neg (by omega), if_neg (by omega), if_pos (by omega)] at h2
  simp at h2

theorem byte_eq (b : UInt8) (k : Nat) (h : k = b.toNat) : UInt8.ofNat k = b := by
  rw [h]; exact ofNat_toNat_byte b

theorem decodeRune_sound (b0 : UInt8) (rest : Bytes) :
    decodeRune (b0 :: rest) = (0xFFFD, 1) ∨
    ∃ (c : Char) (rest1 : Bytes), b0 :: rest = encodeRune c ++ rest1 := by
  have hb0 := UInt8.toNat_lt b0
  by_cases h1 : b0.toNat < 0x80
  · right
    refine ⟨Char.ofNat b0.toNat, rest, ?_⟩
    have hc := toNat_ofNat_char b0.toNat (by omega)
    unfold encodeRune
    simp only [hc, if_pos h1, List.singleton_append, ofNat_toNat_byte]
  by_cases h2 : b0.toNat < 0xC2
  · left
    simp only [decodeRune, if_neg h1, if_pos h2]
  by_cases h3 : b0.toNat < 0xE0
  · rcases rest with _ | ⟨b1, r⟩
    · left; simp only [decodeRune, if_neg h1, if_neg h2, if_pos h3]
    by_cases hb : 0x80 ≤ b1.toNat ∧ b1.toNat ≤ 0xBF
    swap
    · left; simp only [decodeRune, if_neg h1, if_neg h2, if_pos h3, if_neg hb]
    right
    refine ⟨Char.ofNat (b0.toNat % 32 * 64 + b1.toNat % 64), r, ?_⟩
    have hc := toNat_ofNat_char (b0.toNat % 32 * 64 + b1.toNat % 64) (by omega)
    unfold encodeRune
    simp only [hc]
    rw [if_neg (by omega), if_pos (by omega), byte_eq b0 _ (by omega),
      byte_eq b1 _ (by omega)]
    rfl
  by_cases h4 : b0.toNat < 0xF0
  · rcases rest with _ | ⟨b1, _ | ⟨b2, r⟩⟩
    · left; simp only [decodeRune, if_neg h1, if_neg h2, if_neg h3, if_pos h4]
    · left; simp only [decodeRune, if_neg h1, if_neg h2, if_neg h3, if_pos h4]
    by_cases hb : acceptLo b0.toNat ≤ b1.toNat ∧ b1.toNat ≤ acceptHi b0.toNat ∧
        0x80 ≤ b2.toNat ∧ b2.toNat ≤ 0xBF
    swap
    · left; simp only [decodeRune, if_neg h1, if_neg h2, if_neg h3, if_pos h4, if_neg hb]
    right
    have hb1 : 0x80 ≤ b1.toNat ∧ b1.toNat ≤ 0xBF ∧ (b0.toNat = 0xE0 → 0xA0 ≤ b1.toNat) ∧
        (b0.toNat = 0xED → b1.toNat ≤ 0x9F) := by
      obtain ⟨hlo, hhi, -⟩ := hb
      unfold acceptLo at hlo
      unfold acceptHi at hhi
      split_ifs at hlo hhi <;> omega
    refine ⟨Char.ofNat (b0.toNat % 16 * 4096 + b1.toNat % 64 * 64 + b2.toNat % 64), r, ?_⟩
    have hc := toNat_ofNat_char (b0.toNat % 16 * 4096 + b1.toNat % 64 * 64 + b2.toNat % 64)
      (by omega)
    unfold encodeRune
    simp only [hc]
    rw [if_neg (by omega), if_neg (by omega), if_pos (by omega), byte_eq b0 _ (by omega),
      byte_eq b1 _ (by omega), byte_eq b2 _ (by omega)]
    rfl
  by_cases h5 : b0.toNat < 0xF5
  · rcases rest with _ | ⟨b1, _ | ⟨b2, _ | ⟨b3, r⟩⟩⟩
    · left; simp only [decodeRune, if_neg h1, if_neg h2, if_neg h3, if_neg h4, if_pos h5]
    · left; simp only [decodeRune, if_neg h1, if_neg h2, if_neg h3, if_neg h4, if_pos h5]
    · left; simp only [decodeRune, if_neg h1, if_neg h2, if_neg h3, if_neg h4, if_pos h5]
    by_cases hb : acceptLo b0.toNat ≤ b1.toNat ∧ b1.toNat ≤ acceptHi b0.toNat ∧
        0x80 ≤ b2.toNat ∧ b2.toNat ≤ 0xBF ∧ 0x80 ≤ b3.toNat ∧ b3.toNat ≤ 0xBF
    swap
    · left
      simp only [decodeRune, if_neg h1, if_neg h2, if_neg h3, if_neg h4, if_pos h5, if_neg hb]
    right
    have hb1 : 0x80 ≤ b1.toNat ∧ b1.toNat ≤ 0xBF ∧ (b0.toNat = 0xF0 → 0x90 ≤ b1.toNat) ∧
        (b0.toNat = 0xF4 → b1.toNat ≤ 0x8F) := by
      obtain ⟨hlo, hhi, -⟩ := hb
      unfold acceptLo at hlo
      unfold acceptHi at hhi
      split_ifs at hlo hhi <;> omega
    refine ⟨Char.ofNat (b0.toNat % 8 * 262144 + b1.toNat % 64 * 4096 + b2.toNat % 64 * 64 +
      b3.toNat % 64), r, ?_⟩
    have hc := toNat_ofNat_char (b0.toNat % 8 * 262144 + b1.toNat % 64 * 4096 +
      b2.toNat % 64 * 64 + b3.toNat % 64) (by omega)
    unfold encodeRune
    simp only [hc]
    rw [if_neg (by omega), if_neg (by omega), if_neg (by omega), byte_eq b0 _ (by omega),
      byte_eq b1 _ (by omega), byte_eq b2 _ (by omega), byte_eq b3 _ (by omega)]
    rfl
  · left
    simp only [decodeRune, if_neg h1, if_neg h2, if_neg h3, if_neg h4, if_neg h5]

theorem reads_runesFrom (n : Nat) : ∀ s : Bytes, s.length ≤ n → Reads s (runesFrom 0 s) := by
  induction n with
  | zero =>
    intro s hs
    have : s = [] := List.length_eq_zero.mp (Nat.le_zero.mp hs)
    subst this
    exact Reads.nil
  | succ n ih =>
    intro s hs
    rcases s with _ | ⟨b, rest⟩
    · exact Reads.nil
    rcases decodeRune_sound b rest with h | ⟨c, rest1, h⟩
    · have e : runesFrom 0 (b :: rest) = Char.ofNat 0xFFFD :: runesFrom 0 rest := by
        rw [runesFrom, h]
        rfl
      rw [e]
      exact Reads.stray b rest _ (decodeRune_stray b rest h)
        (ih rest (by simpa using hs))
    · rw [h, runesFrom_encodeRune]
      refine Reads.rune c rest1 _ (ih rest1 ?_)
      have hl := congrArg List.length h
      have hpos : 0 < (encodeRune c).length := List.length_pos.mpr (encodeRune_ne_nil c)
      simp only [List.length_cons, List.length_append] at hl hs
      omega

theorem reads_runes (s : Bytes) : Reads s (runes s).data :=
  reads_runesFrom s.length s (Nat.le_refl _)

theorem reads_unique (s : Bytes) (t : List Char) (h : Reads s t) : t = (runes s).data := by
  show t = runesFrom 0 s
  induction h with
  | nil => rfl
  | rune c rest t _ ih => rw [runesFrom_encodeRune, ih]
  | stray b rest t hno _ ih =>
    rcases decodeRune_sound b rest with h | ⟨c, rest1, h⟩
    · rw [runesFrom, h, ih]
      rfl
    · exact absurd ⟨rest1, h.symm⟩ (hno c)


/-! ## The claims about `/recent` -/

/-- C8 (as the code has it): whatever order the map iteration takes, the
response of `/recent` has status 200.  When the map holds at least one record,
the body is a JSON array followed by a newline that holds exactly one object
per entry of the map: the records read back from it are a permutation of the
texts of the records of the map, where the text of a field has the code point
of every UTF-8 encoding in it and `U+FFFD` for every byte at which no encoding
starts, so that a record whose fields are valid UTF-8 is read back with its own
values.  When the map is empty, the body is the JSON value `null` followed by
a newline, because a nil slice is encoded. -/
theorem recentHandler_lists_entries (sh : World) (recent : RecentMap)
    (hperm : (sh.mapOrder (rawValues recent)).Perm (rawValues recent)) :
    (recentHandler sh recent).status = 200 ∧
    (rawValues recent ≠ [] →
      ∃ pkgs, readArray (recentHandler sh recent).body = some pkgs ∧
        pkgs.Perm ((rawValues recent).map rawPkgInfo.text) ∧
        (∀ p : pkgInfo, p.raw ∈ rawValues recent → p ∈ pkgs)) ∧
    (∀ p ∈ rawValues recent, Reads p.Url p.text.Url.data ∧
      Reads p.Hash p.text.Hash.data ∧ Reads p.Version p.text.Version.data) ∧
    (rawValues recent = [] → (recentHandler sh recent).body = "null\n") := by
  refine ⟨rfl, ?_, fun p _ => ⟨reads_runes _, reads_runes _, reads_runes _⟩, ?_⟩
  · intro hne
    rcases hx : sh.mapOrder (rawValues recent) with _ | ⟨x, xs⟩
    · rw [hx] at hperm
      exact absurd (List.Perm.nil_eq hperm).symm hne
    · have hp : ((x :: xs).map rawPkgInfo.text).Perm
          ((rawValues recent).map rawPkgInfo.text) := (hx ▸ hperm).map _
      refine ⟨(x :: xs).map rawPkgInfo.text, ?_, hp, ?_⟩
      · simp only [recentHandler, jsonEncode, hx, foldl_append_none,
          ResponseWriter.body_Write, ResponseWriter.body_fresh, String.empty_append]
        exact readArray_jsonMarshal (x :: xs)
      · intro p hmem
        refine hp.symm.subset ?_
        have := List.mem_map_of_mem rawPkgInfo.text hmem
        rwa [text_raw] at this
  · intro he
    rw [he] at hperm
    have hx : sh.mapOrder (rawValues recent) = [] := by
      rw [he]; exact List.Perm.eq_nil hperm
    simp only [recentHandler, jsonEncode, hx, List.foldl_nil,
      ResponseWriter.body_Write, ResponseWriter.body_fresh, String.empty_append]
    rfl

/-- The theorem of C8 on a map of two records, visited in reverse order. -/
theorem recentHandler_lists_entries_witness :
    (recentHandler widgetWorld twoPinsMap).status = 200 ∧
    (rawValues twoPinsMap ≠ [] →
      ∃ pkgs, readArray (recentHandler widgetWorld twoPinsMap).body = some pkgs ∧
        pkgs.Perm ((rawValues twoPinsMap).map rawPkgInfo.text) ∧
        (∀ p : pkgInfo, p.raw ∈ rawValues twoPinsMap → p ∈ pkgs)) ∧
    (∀ p ∈ rawValues twoPinsMap, Reads p.Url p.text.Url.data ∧
      Reads p.Hash p.text.Hash.data ∧ Reads p.Version p.text.Version.data) ∧
    (rawValues twoPinsMap = [] → (recentHandler widgetWorld twoPinsMap).body = "null\n") :=
  recentHandler_lists_entries widgetWorld twoPinsMap (List.reverse_perm _)

set_option maxRecDepth 100000 in
/-- The response of `/recent` on the map of two records: the record read back
for each entry has the values of the entry. -/
theorem recentHandler_two_pins_example :
    (recentHandler widgetWorld twoPinsMap).body =
      "[\x7b\"Url\":\"github.com/acme/widget\",\"Hash\":\"QmAbc123\",\"Version\":\"1.2.3\"\x7d," ++
      "\x7b\"Url\":\"github.com/a/\\u003cb\\u003e\",\"Hash\":\"QmXyz\",\"Version\":\"0.1é\"\x7d]\n" ∧
    readArray (recentHandler widgetWorld twoPinsMap).body =
      some [{ Url := "github.com/acme/widget", Hash := "QmAbc123", Version := "1.2.3" },
        { Url := "github.com/a/<b>", Hash := "QmXyz", Version := "0.1é" }] := by
  decide

set_option maxRecDepth 100000 in
/-- C8 fails as stated.  With no package recorded the body of `/recent` is
`null` followed by a newline, which is not the empty JSON array.  With a record
whose version ends in the byte `0xE9` the object of the body does not carry the
bytes of the entry: the byte is written as the escape of `U+FFFD`. -/
theorem recentHandler_counterexample :
    rawValues (∅ : RecentMap) = [] ∧
    (recentHandler widgetWorld ∅).body = "null\n" ∧
    (recentHandler widgetWorld ∅).body ≠ "[]" ∧
    (recentHandler widgetWorld ∅).body ≠ "[]\n" ∧
    readArray (recentHandler widgetWorld ∅).body = none ∧
    rawValues latin1Map =
      [{ Url := utf8 "github.com/a/b", Hash := utf8 "QmXyz", Version := utf8 "1.0" ++ [0xE9] }] ∧
    (recentHandler widgetWorld latin1Map).body =
      "[\x7b\"Url\":\"github.com/a/b\",\"Hash\":\"QmXyz\",\"Version\":\"1.0\\ufffd\"\x7d]\n" ∧
    readArray (recentHandler widgetWorld latin1Map).body =
      some [{ Url := "github.com/a/b", Hash := "QmXyz", Version := "1.0\uFFFD" }] ∧
    utf8 "1.0\uFFFD" ≠ utf8 "1.0" ++ [0xE9] := by
  decide

/-! ## The claims about resolution and normalisation -/

/-- C9 (as the code has it): for an accepted request, resolution fails (status
400, no call but the fetch, log and map unchanged) when `http.Get` returns an
error, when the body cannot be read or when the body does not hold exactly two
fields.  The status code of the fetched response is not looked at: the run on a
response with any status code is the run on the response with status 200 and
the same body. -/
theorem pinPackage_ignores_fetch_status (sh : World) (st : State) (r : Request)
    (hm : r.Method = "POST") (hp : HasPrefix (normalized r) "github.com/" = true) :
    (resolutionFails sh r = true →
      (pinPackage sh st r).w.status = 400 ∧ (pinPackage sh st r).st = st ∧
      (pinPackage sh st r).calls = [.get (lastpubverUrl r)]) ∧
    (∀ c body, sh.Get (lastpubverUrl r) = .resp c body →
      resolutionFails sh r =
        resolutionFails { sh with Get := fun _ => .resp 200 body } r ∧
      (pinPackage sh st r).w =
        (pinPackage { sh with Get := fun _ => .resp 200 body } st r).w ∧
      (pinPackage sh st r).st.log =
        (pinPackage { sh with Get := fun _ => .resp 200 body } st r).st.log ∧
      (pinPackage sh st r).st.recent =
        (pinPackage { sh with Get := fun _ => .resp 200 body } st r).st.recent ∧
      (pinPackage sh st r).calls =
        (pinPackage { sh with Get := fun _ => .resp 200 body } st r).calls) := by
  constructor
  · intro hres
    rcases pinPackage_cases sh st r with
      ⟨hm2, -⟩ | ⟨-, hp2, -⟩ | ⟨-, -, -, hs, hc, hw⟩ |
      ⟨-, -, hres2, -⟩ | ⟨-, -, hres2, -⟩ | ⟨-, -, hres2, -⟩ | ⟨-, -, hres2, -⟩
    · exact absurd hm hm2
    · rw [hp] at hp2; cases hp2
    · exact ⟨hw, hs, hc⟩
    all_goals rw [hres] at hres2; cases hres2
  · intro c body hg
    unfold normalized normalize at hp
    unfold lastpubverUrl normalized normalize at hg
    cases body <;>
      simp [resolutionFails, lastpubverUrl, normalized, normalize, pinPackage, logPin, hm,
        hp, hg]


/-- The theorem of C9 on the response 404 with the body `1.2.3 QmAbc123`. -/
theorem pinPackage_ignores_fetch_status_witness :
    (resolutionFails notFoundWorld widgetRequest = true →
      (pinPackage notFoundWorld emptyState widgetRequest).w.status = 400 ∧
      (pinPackage notFoundWorld emptyState widgetRequest).st = emptyState ∧
      (pinPackage notFoundWorld emptyState widgetRequest).calls =
        [.get (lastpubverUrl widgetRequest)]) ∧
    (∀ c body, notFoundWorld.Get (lastpubverUrl widgetRequest) = .resp c body →
      resolutionFails notFoundWorld widgetRequest =
        resolutionFails { notFoundWorld with Get := fun _ => .resp 200 body } widgetRequest ∧
      (pinPackage notFoundWorld emptyState widgetRequest).w =
        (pinPackage { notFoundWorld with Get := fun _ => .resp 200 body } emptyState
          widgetRequest).w ∧
      (pinPackage notFoundWorld emptyState widgetRequest).st.log =
        (pinPackage { notFoundWorld with Get := fun _ => .resp 200 body } emptyState
          widgetRequest).st.log ∧
      (pinPackage notFoundWorld emptyState widgetRequest).st.recent =
        (pinPackage { notFoundWorld with Get := fun _ => .resp 200 body } emptyState
          widgetRequest).st.recent ∧
      (pinPackage notFoundWorld emptyState widgetRequest).calls =
        (pinPackage { notFoundWorld with Get := fun _ => .resp 200 body } emptyState
          widgetRequest).calls) :=
  pinPackage_ignores_fetch_status notFoundWorld emptyState widgetRequest
    (by decide) (by decide)

/-- C9 fails as stated: when the metadata fetch answers 404 with a body of two
fields, the request is not ended with a 400: `Refs` and `Pin` are called, the
log gets a line, the map gets a record and the status is 200. -/
theorem pinPackage_not_found_counterexample :
    HasPrefix (normalized widgetRequest) "github.com/" = true ∧
    notFoundWorld.Get (lastpubverUrl widgetRequest) = .resp 404 (.ok "1.2.3 QmAbc123") ∧
    (pinPackage notFoundWorld emptyState widgetRequest).w.status = 200 ∧
    (pinPackage notFoundWorld emptyState widgetRequest).calls =
      [.get (lastpubverUrl widgetRequest), .refs "QmAbc123", .pin "QmAbc123",
        .write "github.com/acme/widget 1.2.3 QmAbc123\n"] ∧
    (pinPackage notFoundWorld emptyState widgetRequest).st.log =
      "github.com/acme/widget 1.2.3 QmAbc123\n" ∧
    (pinPackage notFoundWorld emptyState widgetRequest).st.recent.lookup
        "github.com/acme/widget" =
      some { Url := "github.com/acme/widget", Hash := "QmAbc123", Version := "1.2.3" } := by
  decide

theorem replaceFirst_eq_self (old new s : List Char) (h : ¬ old <:+: s) :
    replaceFirst old new s = s := by
  induction s with
  | nil =>
    unfold replaceFirst
    split
    · rename_i he
      have : old = [] := by simpa using he
      subst this
      exact absurd List.nil_infix h
    · rfl
  | cons c cs ih =>
    unfold replaceFirst
    split
    · rename_i hpre
      exact absurd (List.isPrefixOf_iff_prefix.mp hpre).isInfix h
    · rw [ih (fun hi => h (hi.trans (List.suffix_cons c cs).isInfix))]

theorem replaceFirst_append_self (old r : List Char) (h : old ≠ []) :
    replaceFirst old [] (old ++ r) = r := by
  obtain ⟨a, t, rfl⟩ := List.exists_cons_of_ne_nil h
  rw [List.cons_append, replaceFirst,
    if_pos (List.isPrefixOf_iff_prefix.mpr (by simp)), List.nil_append,
    ← List.cons_append, List.drop_left]

theorem Replace1_of_not_contains (s old new : String) (h : ¬ Contains s old) :
    Replace1 s old new = s := by
  unfold Replace1
  rw [replaceFirst_eq_self _ _ _ h]

theorem Replace1_append_self (old r : String) (h : old.data ≠ []) :
    Replace1 (old ++ r) old "" = r := by
  unfold Replace1
  rw [String.data_append]
  show (⟨replaceFirst old.data [] (old.data ++ r.data)⟩ : String) = r
  rw [replaceFirst_append_self _ _ h]

theorem Replace1_http_of_https (r : String) (h : ¬ Contains r "http://") :
    Replace1 ("https://" ++ r) "http://" "" = "https://" ++ r := by
  unfold Replace1
  rw [String.data_append]
  have hr := replaceFirst_eq_self "http://".data "".data r.data h
  show (⟨replaceFirst ['h', 't', 't', 'p', ':', '/', '/'] []
    ('h' :: 't' :: 't' :: 'p' :: 's' :: ':' :: '/' :: '/' :: r.data)⟩ : String) = _
  have hr2 : replaceFirst ['h', 't', 't', 'p', ':', '/', '/'] [] r.data = r.data := hr
  simp [replaceFirst, hr2]
  rfl

theorem pinPackage_calls_ne_nil_iff (sh : World) (st : State) (r : Request)
    (hm : r.Method = "POST") :
    (pinPackage sh st r).calls ≠ [] ↔ HasPrefix (normalized r) "github.com/" = true := by
  rcases pinPackage_cases sh st r with
    ⟨hm2, -⟩ | ⟨-, hp, -, hc, -⟩ | ⟨-, hp, -, -, hc, -⟩ |
    ⟨-, hp, -, h, e, -, -, hc, -⟩ | ⟨-, hp, -, h, e, refs, -, -, -, hc, -⟩ |
    ⟨-, hp, -, h, v, n, e, refs, -, -, -, -, -, hc, -⟩ |
    ⟨-, hp, -, h, v, refs, -, -, -, -, -, hc, -⟩
  · exact absurd hm hm2
  all_goals simp [hc, hp]

theorem replaceFirst_first_occurrence (old new : List Char) (hne : old ≠ []) (s : List Char) :
    (¬ old <:+: s ∧ replaceFirst old new s = s) ∨
    ∃ a b, s = a ++ old ++ b ∧ ¬ old <:+: a ++ old.dropLast ∧
      replaceFirst old new s = a ++ new ++ b := by
  induction s with
  | nil =>
    left
    refine ⟨fun hi => hne (List.eq_nil_of_infix_nil hi), ?_⟩
    unfold replaceFirst
    rw [if_neg (by simpa using hne)]
  | cons c cs ih =>
    by_cases hpre : old.isPrefixOf (c :: cs) = true
    · right
      obtain ⟨b, hb⟩ := List.isPrefixOf_iff_prefix.mp hpre
      refine ⟨[], b, by simpa using hb.symm, ?_, ?_⟩
      · intro hi
        have h1 := hi.length_le
        have h2 : 0 < old.length := List.length_pos.mpr hne
        simp only [List.nil_append, List.length_dropLast] at h1
        omega
      · unfold replaceFirst
        rw [if_pos hpre, ← hb, List.drop_left, List.nil_append]
    · have hrec : replaceFirst old new (c :: cs) = c :: replaceFirst old new cs := by
        rw [replaceFirst, if_neg hpre]
      have hnp : ¬ old <+: c :: cs := fun hx => hpre (List.isPrefixOf_iff_prefix.mpr hx)
      rcases ih with ⟨hno, heq⟩ | ⟨a, b, hs, hfirst, heq⟩
      · left
        refine ⟨fun hi => ?_, by rw [hrec, heq]⟩
        rcases List.infix_cons_iff.mp hi with h | h
        · exact hnp h
        · exact hno h
      · right
        refine ⟨c :: a, b, by rw [hs]; simp, ?_, by rw [hrec, heq]; simp⟩
        intro hi
        rw [List.cons_append] at hi
        rcases List.infix_cons_iff.mp hi with h | h
        · apply hnp
          refine h.trans ?_
          rw [hs, List.append_assoc]
          exact (List.prefix_cons_inj c).mpr
            ((List.prefix_append_right_inj a).mpr
              ((List.dropLast_prefix old).trans (List.prefix_append old b)))
        · exact hfirst h

theorem replaceFirst_at (old new b : List Char) (hne : old ≠ []) (a : List Char) :
    ¬ old <:+: a ++ old.dropLast → replaceFirst old new (a ++ old ++ b) = a ++ new ++ b := by
  induction a with
  | nil =>
    intro _
    obtain ⟨x, t, rfl⟩ := List.exists_cons_of_ne_nil hne
    rw [List.nil_append, List.nil_append, List.cons_append, replaceFirst,
      if_pos (List.isPrefixOf_iff_prefix.mpr (by simp)), ← List.cons_append, List.drop_left]
  | cons c a ih =>
    intro hfirst
    have hnp : ¬ old <+: c :: (a ++ old ++ b) := by
      intro hx
      apply hfirst
      have h2 : (c :: a) ++ old.dropLast <+: c :: (a ++ old ++ b) := by
        rw [List.cons_append, List.append_assoc]
        exact (List.prefix_cons_inj c).mpr
          ((List.prefix_append_right_inj a).mpr
            ((List.dropLast_prefix old).trans (List.prefix_append old b)))
      have h3 : old.length ≤ ((c :: a) ++ old.dropLast).length := by
        have : 0 < old.length := List.length_pos.mpr hne
        simp only [List.length_append, List.length_cons, List.length_dropLast]
        omega
      exact (List.prefix_of_prefix_length_le hx h2 h3).isInfix
    have hrec : ¬ old <:+: a ++ old.dropLast := fun hi =>
      hfirst (hi.trans (List.suffix_cons c _).isInfix)
    rw [List.cons_append, List.cons_append, replaceFirst,
      if_neg (fun hx => hnp (List.isPrefixOf_iff_prefix.mp hx)), ih hrec]
    simp

theorem Replace1_at (old a b : String) (hne : old.data ≠ [])
    (hfirst : ¬ old.data <:+: a.data ++ old.data.dropLast) :
    Replace1 (a ++ old ++ b) old "" = a ++ b := by
  unfold Replace1
  apply String.ext
  simp only [String.data_append]
  rw [replaceFirst_at old.data "".data b.data hne a.data hfirst]
  simp

theorem Replace1_removes_first (s old new : String) (hne : old.data ≠ []) :
    (¬ Contains s old ∧ Replace1 s old new = s) ∨
    ∃ a b : String, s = a ++ old ++ b ∧ ¬ old.data <:+: a.data ++ old.data.dropLast ∧
      Replace1 s old new = a ++ new ++ b := by
  rcases replaceFirst_first_occurrence old.data new.data hne s.data with
    ⟨hno, heq⟩ | ⟨a, b, hs, hfirst, heq⟩
  · left
    exact ⟨hno, by unfold Replace1; rw [heq]⟩
  · right
    refine ⟨⟨a⟩, ⟨b⟩, ?_, hfirst, ?_⟩
    · apply String.ext
      simpa [String.data_append] using hs
    · unfold Replace1
      rw [heq]
      apply String.ext
      simp [String.data_append]

/-- C10 (as the code has it): normalisation removes the first occurrence of
`http://` wherever it stands in the submitted text and then the first
occurrence of `https://` wherever it stands in the result.  So a first
`http://` that stands after the text `a` is removed from `a ++ "http://" ++ b`,
and likewise a first `https://`; a `ghurl` that contains neither text is
unchanged, `"http://" ++ rest` is normalized to `rest` when `rest` holds no
`https://`, and `"https://" ++ rest` is normalized to `rest` when `rest` holds
no `http://`.  A POST request goes on to the metadata fetch exactly when the
normalized text starts with `github.com/`, and on a successful pin the
normalized text, host included, is the first field of the log line and the key
and `Url` of the stored record. -/
theorem normalize_removes_first_occurrences (sh : World) (st : State) (r : Request)
    (g rest : String) :
    (∃ g1, RemovesFirst "http://" g g1 ∧ RemovesFirst "https://" g1 (normalize g)) ∧
    (∀ a b : String, ¬ Contains (a ++ "http:/") "http://" →
      ¬ Contains (a ++ b) "https://" → normalize (a ++ "http://" ++ b) = a ++ b) ∧
    (∀ a b : String, ¬ Contains (a ++ "https://" ++ b) "http://" →
      ¬ Contains (a ++ "https:/") "https://" → normalize (a ++ "https://" ++ b) = a ++ b) ∧
    (¬ Contains g "http://" → ¬ Contains g "https://" → normalize g = g) ∧
    (¬ Contains rest "https://" → normalize ("http://" ++ rest) = rest) ∧
    (¬ Contains rest "http://" → normalize ("https://" ++ rest) = rest) ∧
    (r.Method = "POST" →
      ((pinPackage sh st r).calls ≠ [] ↔
        HasPrefix (normalize (r.FormValue "ghurl")) "github.com/" = true)) ∧
    (∀ c out v h refs, r.Method = "POST" →
      HasPrefix (normalize (r.FormValue "ghurl")) "github.com/" = true →
      sh.Get (lastpubverUrl r) = .resp c (.ok out) → Fields out = [v, h] →
      sh.Refs h = .ok refs → sh.Pin h = none →
      sh.Fprintf (logLine (normalize (r.FormValue "ghurl")) h v) = .ok →
      (pinPackage sh st r).st.log =
        st.log ++ (normalize (r.FormValue "ghurl") ++ " " ++ v ++ " " ++ h ++ "\n") ∧
      (pinPackage sh st r).st.recent =
        st.recent.insert (normalize (r.FormValue "ghurl"))
          { Url := normalize (r.FormValue "ghurl"), Hash := h, Version := v }) := by
  refine ⟨⟨Replace1 g "http://" "", ?_, ?_⟩, ?_, ?_, ?_, ?_, ?_, ?_, ?_⟩
  · rcases Replace1_removes_first g "http://" "" (by decide) with
      ⟨hno, heq⟩ | ⟨a, b, hs, hfirst, heq⟩
    · exact Or.inl ⟨hno, heq⟩
    · exact Or.inr ⟨a, b, hs, hfirst, by rw [heq, String.append_empty]⟩
  · rcases Replace1_removes_first (Replace1 g "http://" "") "https://" "" (by decide) with
      ⟨hno, heq⟩ | ⟨a, b, hs, hfirst, heq⟩
    · exact Or.inl ⟨hno, heq⟩
    · exact Or.inr ⟨a, b, hs, hfirst, by unfold normalize; rw [heq, String.append_empty]⟩
  · intro a b h1 h2
    unfold normalize
    rw [Replace1_at "http://" a b (by decide) h1, Replace1_of_not_contains _ _ _ h2]
  · intro a b h1 h2
    unfold normalize
    rw [Replace1_of_not_contains _ _ _ h1, Replace1_at "https://" a b (by decide) h2]
  · intro h1 h2
    unfold normalize
    rw [Replace1_of_not_contains g _ _ h1, Replace1_of_not_contains g _ _ h2]
  · intro h1
    unfold normalize
    rw [Replace1_append_self "http://" rest (by decide),
      Replace1_of_not_contains rest _ _ h1]
  · intro h1
    unfold normalize
    rw [Replace1_http_of_https rest h1, Replace1_append_self "https://" rest (by decide)]
  · intro hm
    exact pinPackage_calls_ne_nil_iff sh st r hm
  · intro c out v h refs hm hp hg hf hR hP hW
    obtain ⟨h1, h2, -⟩ := pinPackage_of_success sh st r c out v h refs hm hp hg hf hR hP hW
    exact ⟨h1, h2⟩

/-- C10 fails as stated: `github.com/http://x` begins with neither scheme and
is not left unchanged, `"http://" ++ "https://github.com/a"` is not normalized
to `https://github.com/a`, and the request that submits it is accepted although
the text with its one leading scheme removed does not start with
`github.com/`. -/
theorem normalize_counterexample :
    HasPrefix "github.com/http://x" "http://" = false ∧
    HasPrefix "github.com/http://x" "https://" = false ∧
    normalize "github.com/http://x" = "github.com/x" ∧
    normalize "github.com/http://x" ≠ "github.com/http://x" ∧
    normalize ("http://" ++ "https://github.com/a") = "github.com/a" ∧
    normalize ("http://" ++ "https://github.com/a") ≠ "https://github.com/a" ∧
    HasPrefix "https://github.com/a" "github.com/" = false ∧
    (pinPackage widgetWorld emptyState
      { Method := "POST", FormValue := fun _ => "http://https://github.com/a" }).calls ≠ [] := by
  decide

end Gexpin
